import Mathlib

/-!
Verification development for the `relaxer` repository: shallow embeddings of
the LRA kernel (`relaxer/logical/lra.py`), the Pareto set
(`relaxer/optimization/pareto.py`), the polyhedron optimizer's edge sampling
(`relaxer/optimization/pycddlib.py`), the dump-location handlers
(`relaxer/io.py`), the pysmt-based real-interval propagation
(`relaxer/logical/pysmt/rip.py`) and normal-form transformer
(`relaxer/logical/pysmt/normalform.py`), and the DFS trace iterator
(`relaxer/logical/iterator.py`).  Python's mutable state is threaded
explicitly, Python `Fraction`s become `ℚ`, Python lists/tuples become Lean
lists, and Python hash-sets become duplicate-free lists (an arbitrary fixed order);
fallible code returns `Option`/`Except`.
-/

namespace Relaxer

/- Batteries marks the `Rat` arithmetic operations `@[irreducible]`, which
blocks the `decide`-based evaluation of the executable model on concrete
inputs; restore the default reducibility for them (proof checking is
unaffected — reducibility only steers elaboration). -/
set_option allowUnsafeReducibility true
attribute [local semireducible] Rat.mul Rat.add Rat.sub Rat.inv

/-! ## Character-level string utilities

Models of the Python `str` operations used by the LRA parser/printer:
`str.split(sep)` for a one-character separator, `" + ".join`, `str.strip`,
and decimal integer printing (`str(int)`).  They operate on `List Char`;
`String`s are converted at the boundary. -/

/-- Model of Python `s.split(c)` for a single-character separator: every
occurrence splits, empty parts are kept, `"".split(c) == [""]`. -/
def splitOnChar (sep : Char) : List Char → List (List Char)
  | [] => [[]]
  | c :: rest =>
    if c = sep then [] :: splitOnChar sep rest
    else
      match splitOnChar sep rest with
      | [] => [[c]]
      | h :: t => (c :: h) :: t

/-- Model of `sep.join(parts)` at character level. -/
def joinSep (sep : List Char) : List (List Char) → List Char
  | [] => []
  | [x] => x
  | x :: xs => x ++ sep ++ joinSep sep xs

/-- Whitespace characters stripped by Python `str.strip()` (the ones that can
occur in this code base's printed output). -/
def pyIsSpace (c : Char) : Bool := c = ' ' || c = '\t' || c = '\n' || c = '\r'

/-- Model of Python `str.strip()`. -/
def pyStrip (cs : List Char) : List Char :=
  ((cs.dropWhile pyIsSpace).reverse.dropWhile pyIsSpace).reverse

/-- The decimal digit character for `d` (callers keep `d < 10`; larger inputs
clamp to `'9'`, a case no caller reaches). -/
def digitChar (d : Nat) : Char :=
  match d with
  | 0 => '0' | 1 => '1' | 2 => '2' | 3 => '3' | 4 => '4'
  | 5 => '5' | 6 => '6' | 7 => '7' | 8 => '8' | _ => '9'

/-- Numeric value of a decimal digit character. -/
def digitVal (c : Char) : Nat := c.toNat - 48

/-- Value of a decimal digit string read left to right, continuing from the
accumulated value `a`. -/
def digitsValFrom (a : Nat) (l : List Char) : Nat :=
  l.foldl (fun acc c => acc * 10 + digitVal c) a

/-- Value of a decimal digit string. -/
def digitsVal (l : List Char) : Nat := digitsValFrom 0 l

/-- Digit printing with a structural fuel argument (so that the kernel can
evaluate it; `fuel > n` always holds at the call site). -/
def natCharsAux : Nat → Nat → List Char
  | 0, _ => []
  | fuel + 1, n =>
    if n < 10 then [digitChar n]
    else natCharsAux fuel (n / 10) ++ [digitChar (n % 10)]

/-- Model of Python `str(n)` for a non-negative integer. -/
def natChars (n : Nat) : List Char := natCharsAux (n + 1) n

/-- Model of Python `str(i)` for an integer. -/
def intChars (i : Int) : List Char :=
  if i < 0 then '-' :: natChars i.natAbs else natChars i.toNat

/-- Unsigned part of the model of Python `float(s)`: `digits`, `digits.`,
`.digits` or `digits.digits`.  Exponents, `inf` and `nan` are not modelled:
the printer this parser is applied to never emits them.  The returned value
is the exact decimal rational; Python's `float` rounds to the nearest double,
which agrees on the integer strings the round-trip theorems quantify over. -/
def pyFloatUnsigned (cs : List Char) : Option ℚ :=
  let ip := cs.takeWhile Char.isDigit
  let rest := cs.dropWhile Char.isDigit
  match rest with
  | [] => if ip.isEmpty then none else some ((digitsVal ip : ℚ))
  | '.' :: fp =>
    if fp.all Char.isDigit && !(ip.isEmpty && fp.isEmpty) then
      some ((digitsVal ip : ℚ) + (digitsVal fp : ℚ) / 10 ^ fp.length)
    else none
  | _ => none

/-- Model of Python `float(s)` on the fragment emitted by this repository's
printers (`none` models `ValueError`). -/
def pyFloatChars (cs : List Char) : Option ℚ :=
  match cs with
  | [] => pyFloatUnsigned []
  | c :: rest =>
    if c = '-' then (pyFloatUnsigned rest).map (fun q => -q)
    else if c = '+' then pyFloatUnsigned rest
    else pyFloatUnsigned (c :: rest)

/-- Model of Python `int(s)` on optionally signed digit strings (`none`
models `ValueError`). -/
def pyIntChars (cs : List Char) : Option Int :=
  match cs with
  | [] => none
  | c :: rest =>
    if c = '-' then
      (if rest ≠ [] && rest.all Char.isDigit then some (-(digitsVal rest : Int)) else none)
    else
      (if (c :: rest).all Char.isDigit then some ((digitsVal (c :: rest) : Int)) else none)

/-! ## LRA kernel (`relaxer/logical/lra.py`)

`Variable`, `Summand`, `Sum`, `InequalitySymbol`, `Inequality` and their
printing, parsing, equality and hashing. -/

/-- The two `Variable` subclasses `DeltaVariable` and `RelaxationVariable`.
Python equality/hash go through the `identifier` string, which coincides with
structural equality here.  The constructor arguments are `Nat` because only
non-negative indices are ever constructed. -/
inductive PyVariable where
  | delta (depth : Nat)
  | relax (idx : Nat)
deriving DecidableEq

/-- `Variable.identifier` as a character list. -/
def PyVariable.identifierChars : PyVariable → List Char
  | .delta n => "delta_".toList ++ natChars n
  | .relax n => "relax_".toList ++ natChars n

/-- `Variable.identifier` (also `Variable.__str__`). -/
def PyVariable.identifier (v : PyVariable) : String := String.mk v.identifierChars

/-- `variable_from_string`: checks the six-character identifier start, then
parses the piece after the underscore with `int(...)`.  (A negative parsed
index would construct a variable no printer produces; the model clamps it
with `Int.toNat`, which no reachable input exercises.) -/
def variable_from_chars (cs : List Char) : Option PyVariable :=
  if cs.take 6 = "delta_".toList then
    match (splitOnChar '_' cs).get? 1 with
    | some comp => (pyIntChars comp).map (fun i => PyVariable.delta i.toNat)
    | none => none
  else if cs.take 6 = "relax_".toList then
    match (splitOnChar '_' cs).get? 1 with
    | some comp => (pyIntChars comp).map (fun i => PyVariable.relax i.toNat)
    | none => none
  else none

/-- `Summand`: a coefficient with a variable.  Coefficients are `ℚ` (the code
uses `Fraction`s and small integer literals; the parser produces floats whose
values on the verified inputs are exact). -/
structure Summand where
  coefficient : ℚ
  var : PyVariable
deriving DecidableEq

/-- `Sum`: the (ordered) tuple of summands. -/
structure Sum where
  summands : List Summand
deriving DecidableEq

/-- `Sum.is_empty`. -/
def Sum.is_empty (s : Sum) : Bool := s.summands.isEmpty

/-- Python `str(Fraction)`: `"num"` when the denominator is 1, otherwise
`"num/den"` in lowest terms (ℚ is always in lowest terms). -/
def fractionChars (q : ℚ) : List Char :=
  if q.den = 1 then intChars q.num else intChars q.num ++ '/' :: natChars q.den

/-- One printed summand: `f"{summand.coefficient}*{summand.var}"`. -/
def summandChars (sm : Summand) : List Char :=
  fractionChars sm.coefficient ++ '*' :: sm.var.identifierChars

/-- `Sum.__str__` as a character list: summands joined by `" + "`, the empty
sum printed `"0"`. -/
def Sum.pyStrChars (s : Sum) : List Char :=
  if s.summands.isEmpty then ['0']
  else joinSep [' ', '+', ' '] (s.summands.map summandChars)

/-- `Sum.__str__`. -/
def Sum.py_str (s : Sum) : String := String.mk s.pyStrChars

/-- The loop body of `Sum.from_string`: each part (split on `"+"`) is
stripped; `"0"` parts are skipped; every other part must be
`<float>*<variable>` or the call fails (`ValueError` is `none`). -/
def summand_from_chars (cs : List Char) : Option Summand :=
  match splitOnChar '*' cs with
  | [c, v] =>
    match pyFloatChars c, variable_from_chars v with
    | some q, some pv => some { coefficient := q, var := pv }
    | _, _ => none
  | _ => none

/-- Folds `Sum.from_string`'s loop over the split parts. -/
def sum_parts : List (List Char) → Option (List Summand)
  | [] => some []
  | p :: rest =>
    let t := pyStrip p
    if t = ['0'] then sum_parts rest
    else
      match summand_from_chars t, sum_parts rest with
      | some sm, some l => some (sm :: l)
      | _, _ => none

/-- `Sum.from_string`, at character level. -/
def Sum.from_chars (cs : List Char) : Option Sum :=
  (sum_parts (splitOnChar '+' cs)).map Sum.mk

/-- `Sum.from_string` (`none` models the raised `ValueError`). -/
def Sum.from_string (s : String) : Option Sum := Sum.from_chars s.toList

/-- `Sum.__eq__`: multiset equality of the summand tuples (for every summand
occurring in either sum, the occurrence counts agree). -/
def Sum.py_eq (s1 s2 : Sum) : Bool :=
  (s1.summands ++ s2.summands).all
    (fun x => s1.summands.count x == s2.summands.count x)

/-! ### CPython tuple hashing (for `Sum.__hash__`)

`Sum` is a frozen dataclass that defines `__eq__` in its body, so the
dataclass machinery installs the generated `__hash__`, which is
`hash((self.summands,))`.  CPython's tuple hash is the xxHash-style
combiner below (64-bit build); it takes the element hashes as input.  The
element hash of a `Summand` depends on the run's randomized string hashing,
so it is a parameter of the model. -/

/-- 2^64, the modulus of CPython's unsigned hash arithmetic. -/
def pyHashMod : Nat := 2 ^ 64

def xxPrime1 : Nat := 11400714785074694791
def xxPrime2 : Nat := 14029467366897019727
def xxPrime5 : Nat := 2870177450012600261

/-- 64-bit rotate-left by 31, written arithmetically. -/
def rotl31 (x : Nat) : Nat := x % 2 ^ 33 * 2 ^ 31 + x / 2 ^ 33

/-- The accumulation loop of CPython's `tuplehash`. -/
def pyTupleHashAcc : Nat → List Nat → Nat
  | acc, [] => acc
  | acc, h :: t => pyTupleHashAcc (rotl31 ((acc + h * xxPrime2) % pyHashMod) * xxPrime1 % pyHashMod) t

/-- CPython's `tuplehash` of a tuple whose elements hash to `hs` (as an
unsigned 64-bit value; the final signed conversion is a bijection). -/
def pyTupleHash (hs : List Nat) : Nat :=
  let acc := (pyTupleHashAcc xxPrime5 hs + Nat.xor hs.length (Nat.xor xxPrime5 3527539)) % pyHashMod
  if acc = pyHashMod - 1 then 1546275796 else acc

/-- The dataclass-generated `Sum.__hash__`: `hash((self.summands,))`, i.e.
the tuple hash of the one-tuple containing the tuple of summand hashes.
`elemHash` stands for the run's `Summand.__hash__`. -/
def Sum.py_hash (elemHash : Summand → Nat) (s : Sum) : Nat :=
  pyTupleHash [pyTupleHash (s.summands.map elemHash)]

/-- `InequalitySymbol`. -/
inductive InequalitySymbol where
  | greaterThan
  | lessThan
  | greaterEqual
  | lessEqual
deriving DecidableEq

/-- `InequalitySymbol.turned`. -/
def InequalitySymbol.turned : InequalitySymbol → InequalitySymbol
  | .greaterThan => .lessThan
  | .lessThan => .greaterThan
  | .greaterEqual => .lessEqual
  | .lessEqual => .greaterEqual

/-- `Inequality`: `left symbol right` with a rational right-hand side. -/
structure Inequality where
  left : Sum
  symbol : InequalitySymbol
  right : ℚ
deriving DecidableEq

/-- `Inequality.is_strict`. -/
def Inequality.is_strict (i : Inequality) : Bool :=
  i.symbol = InequalitySymbol.greaterThan || i.symbol = InequalitySymbol.lessThan

/-! ## Extended rationals

Model of the Python floats `-inf`, finite values, `+inf` exchanged between
the Pareto set, the optimizer mask arithmetic, and the interval propagation
(`math.inf`).  NaN never arises on the verified paths (multiplication by a
zero coefficient is guarded in the source; `+inf + -inf` is unreachable). -/

inductive XR where
  | ninf
  | fin (q : ℚ)
  | pinf
deriving DecidableEq

/-- Float `≤` on extended rationals. -/
def XR.leB : XR → XR → Bool
  | .ninf, _ => true
  | _, .pinf => true
  | .fin a, .fin b => decide (a ≤ b)
  | .pinf, _ => false
  | .fin _, .ninf => false

/-- Float `<` on extended rationals. -/
def XR.ltB : XR → XR → Bool
  | .ninf, .ninf => false
  | .ninf, _ => true
  | .fin a, .fin b => decide (a < b)
  | .fin _, .pinf => true
  | .fin _, .ninf => false
  | .pinf, _ => false

/-- Float addition on extended rationals (the `inf + -inf` NaN corner is
unreachable on the verified paths; the model picks `pinf` there). -/
def XR.add : XR → XR → XR
  | .fin a, .fin b => .fin (a + b)
  | .pinf, .ninf => .pinf
  | .ninf, .pinf => .pinf
  | .pinf, _ => .pinf
  | _, .pinf => .pinf
  | .ninf, _ => .ninf
  | _, .ninf => .ninf

/-- Float multiplication of an extended rational by a rational (the
`inf * 0` NaN corner is unreachable — the source breaks out on a zero
coefficient before multiplying; the model picks `fin 0` there). -/
def XR.mulQ (x : XR) (c : ℚ) : XR :=
  match x with
  | .fin a => .fin (a * c)
  | .pinf => if c > 0 then .pinf else if c < 0 then .ninf else .fin 0
  | .ninf => if c > 0 then .ninf else if c < 0 then .pinf else .fin 0

/-! ## Pareto set (`relaxer/optimization/pareto.py`) -/

/-- A solution point: a tuple of floats (possibly `+inf` from the unbounded
mask). -/
abbrev Point := List XR

/-- `dominates(p, q)`: all components of `p` are `≥` the corresponding
component of `q` and at least one is `>` (`zip` truncates to the shorter
tuple, exactly as in the source). -/
def dominates (p q : Point) : Bool :=
  (p.zip q).all (fun pr => XR.leB pr.2 pr.1) && (p.zip q).any (fun pr => XR.ltB pr.2 pr.1)

/-- Python `set.add`: a no-op when the element is present. -/
def pareto_insert (p : Point) (s : List Point) : List Point :=
  if p ∈ s then s else p :: s

/-- The loop of `ParetoSet.add`: iterate over a snapshot (`queue`) of the
stored set while removing dominated points from the live set (`cur`); an
existing dominating point aborts without inserting. -/
def pareto_add_scan (p : Point) : List Point → List Point → List Point
  | [], cur => pareto_insert p cur
  | q :: rest, cur =>
    if dominates p q then pareto_add_scan p rest (cur.erase q)
    else if dominates q p then cur
    else pareto_add_scan p rest cur

/-- `ParetoSet.add` (the snapshot `self._points.copy()` is the current
contents). -/
def ParetoSet.add (p : Point) (s : List Point) : List Point :=
  pareto_add_scan p s s

/-- A `ParetoSet` built by a sequence of `add` calls on a fresh set. -/
def ParetoSet.ofAdds (ps : List Point) : List Point :=
  ps.foldl (fun s p => ParetoSet.add p s) []

/-! ## Polyhedron optimizer edge sampling (`relaxer/optimization/pycddlib.py`)

`_maximize_conj_constraints` from the point where `cdd` has produced the
vertex/ray representation: the vertex/ray lists and the adjacency structure
are inputs of the model (the double-description computation itself is the
external `cdd` library). -/

/-- `np.linspace(1, 0, g)`: `g` equally spaced values from 1 down to 0
(the two endpoints are exact in float arithmetic, which is all the theorems
use). -/
def linspace_1_0 (g : Nat) : List ℚ :=
  if g = 0 then []
  else if g = 1 then [1]
  else (List.range g).map (fun i => 1 - (i : ℚ) / ((g : ℚ) - 1))

/-- `np.array(v) + unbounded_mask` for a finite vertex `v`. -/
def add_mask (v : List ℚ) (m : List XR) : List XR :=
  List.zipWith (fun x mi => XR.add (XR.fin x) mi) v m

/-- The column points of `np_v * thetas + np_adj_v * (1 - thetas)` followed
by `+ unbounded_mask`: the `g` convex combinations sampled along the edge
from `v` to `w`. -/
def edge_samples (g : Nat) (v w : List ℚ) (m : List XR) : List Point :=
  (linspace_1_0 g).map
    (fun θ => add_mask (List.zipWith (fun a b => a * θ + b * (1 - θ)) v w) m)

/-- One ray's pass of `_get_unbounded_mask`'s inner loop: coordinates where
the ray is non-zero become `+inf`. -/
def mask_from_ray : List XR → List ℚ → List XR
  | m, [] => m
  | [], _ => []
  | mh :: mt, c :: cs => (if c ≠ 0 then XR.pinf else mh) :: mask_from_ray mt cs

/-- `_get_unbounded_mask`. -/
def unbounded_mask (n : Nat) (rays : List (List ℚ)) : List XR :=
  rays.foldl mask_from_ray (List.replicate n (XR.fin 0))

/-- The dominance pre-filter: vertex `i` is dominated when some other vertex,
shifted by the mask, dominates it (the source's `break` makes this an
existence check). -/
def vertex_dominated (mask : List XR) (vertices : List (List ℚ)) (i : Nat) (vi : List ℚ) : Bool :=
  vertices.enum.any (fun jv => jv.1 ≠ i && dominates (add_mask jv.2 mask) (add_mask vi mask))

/-- `Optimizer._maximize_conj_constraints` after `_get_polygon_surfaces`:
`g` is `self.grid_points`, `n` the number of objectives, `out` the Pareto
set being filled. -/
def maximize_conj_constraints (g n : Nat) (vertices rays : List (List ℚ))
    (adjacency : List (List Nat)) (out : List Point) : List Point :=
  if vertices = [] ∧ rays = [] then out
  else
    let mask := unbounded_mask n rays
    if vertices = [] then ParetoSet.add (add_mask (List.replicate n 0) mask) out
    else
      let dominated := vertices.enum.map (fun iv => vertex_dominated mask vertices iv.1 iv.2)
      vertices.enum.foldl
        (fun acc iv =>
          if dominated.getD iv.1 false then acc
          else
            let acc1 := ParetoSet.add (add_mask iv.2 mask) acc
            (adjacency.getD iv.1 []).foldl
              (fun acc2 j =>
                if j ≥ vertices.length ∨ j ≤ iv.1 ∨ dominated.getD j false then acc2
                else
                  (edge_samples g iv.2 (vertices.getD j []) mask).foldl
                    (fun o pt => ParetoSet.add pt o) acc2)
              acc1)
        out

/-! ## Dump-location handlers (`relaxer/io.py`) -/

/-- `DirectoryLocationHandler.create_dump_location`: the handler state is the
set of registered location names (insertion order kept); a duplicate name
raises `ValueError(f"Dump location {name} already exists")`. -/
def directory_create_dump_location (locs : List String) (name : String) :
    Except String (List String) :=
  if name ∈ locs then Except.error ("Dump location " ++ name ++ " already exists")
  else Except.ok (locs ++ [name])

/-- `EmptyDumpLocationHandler.create_dump_location`: stateless, always
returns a fresh no-op location and never fails. -/
def empty_create_dump_location (_name : String) : Except String Unit :=
  Except.ok ()

/-! ## pysmt formula model

The fragment of pysmt `FNode`s this repository builds: real-valued terms
(symbols, rational constants, `Plus`, binary `Times`/`Minus`) and boolean
nodes.  pysmt has no `GE`/`GT` node types — `GE(a,b)` is constructed as
`LE(b,a)` and `GT(a,b)` as `LT(b,a)` — so `le`/`lt` are the only relations. -/

mutual

inductive RTerm where
  | sym (name : String)
  | const (q : ℚ)
  | plus (args : RTermList)
  | times (a b : RTerm)
  | minus (a b : RTerm)
deriving DecidableEq

/-- Argument list of an n-ary `Plus` node (a mutual inductive so that
decidable equality can be derived). -/
inductive RTermList where
  | nil
  | cons (hd : RTerm) (tl : RTermList)
deriving DecidableEq

end

def RTermList.toList : RTermList → List RTerm
  | .nil => []
  | .cons h t => h :: t.toList

def RTermList.ofList : List RTerm → RTermList
  | [] => .nil
  | h :: t => .cons h (ofList t)

/-- `Plus` from an ordinary list of arguments. -/
def RTerm.plusL (l : List RTerm) : RTerm := .plus (RTermList.ofList l)

/-- `FNode.is_constant()` restricted to the real terms this code builds. -/
def RTerm.isConst : RTerm → Bool
  | .const _ => true
  | _ => false

/-- `FNode.is_symbol()`. -/
def RTerm.isSym : RTerm → Bool
  | .sym _ => true
  | _ => false

mutual

inductive PNode where
  | trueP
  | falseP
  | le (a b : RTerm)
  | lt (a b : RTerm)
  | notP (f : PNode)
  | andP (args : PNodeList)
  | orP (args : PNodeList)
deriving DecidableEq

/-- Argument list of an n-ary `And`/`Or` node. -/
inductive PNodeList where
  | nil
  | cons (hd : PNode) (tl : PNodeList)
deriving DecidableEq

end

def PNodeList.toList : PNodeList → List PNode
  | .nil => []
  | .cons h t => h :: t.toList

def PNodeList.ofList : List PNode → PNodeList
  | [] => .nil
  | h :: t => .cons h (ofList t)

/-- `And` node from an ordinary argument list. -/
def PNode.andL (l : List PNode) : PNode := .andP (PNodeList.ofList l)

/-- `Or` node from an ordinary argument list. -/
def PNode.orL (l : List PNode) : PNode := .orP (PNodeList.ofList l)

/-- `FNode.is_or()`. -/
def PNode.isOr : PNode → Bool
  | .orP _ => true
  | _ => false

/-- `FNode.is_bool_op()`: boolean connectives (of the ones this code
builds). -/
def PNode.isBoolOp : PNode → Bool
  | .andP _ => true
  | .orP _ => true
  | .notP _ => true
  | _ => false

/-- Python set insertion: append unless already present. -/
def insertD {α : Type} [DecidableEq α] (x : α) (l : List α) : List α :=
  if x ∈ l then l else l ++ [x]

/-- Insert every element of `new` into the set `l`. -/
def insertAllD {α : Type} [DecidableEq α] (l new : List α) : List α :=
  new.foldl (fun s x => insertD x s) l

/-- A Python set built from an iterable: duplicates removed, first
occurrences kept (the concrete iteration order of a CPython set is
hash-dependent; the claims proved below do not depend on it). -/
def pyDedup {α : Type} [DecidableEq α] (l : List α) : List α := insertAllD [] l

/-- pysmt `FormulaManager.Not`: collapses a double negation. -/
def mkNot : PNode → PNode
  | .notP x => x
  | x => .notP x

/-- pysmt `And(args)`: `TRUE()` for zero arguments, the argument itself for
one, an `And` node otherwise. -/
def mkAnd (args : List PNode) : PNode :=
  match args with
  | [] => .trueP
  | [x] => x
  | _ => PNode.andL args

/-- pysmt `Or(args)`. -/
def mkOr (args : List PNode) : PNode :=
  match args with
  | [] => .falseP
  | [x] => x
  | _ => PNode.orL args

mutual

/-- The theory atoms of a formula (pysmt `get_atoms`), with duplicates. -/
def pAtoms : PNode → List PNode
  | .trueP => []
  | .falseP => []
  | .notP f => pAtoms f
  | .andP args => pAtomsList args
  | .orP args => pAtomsList args
  | a => [a]

def pAtomsList : PNodeList → List PNode
  | .nil => []
  | .cons x xs => pAtoms x ++ pAtomsList xs

end

/-- pysmt `get_atoms`: the set of theory atoms. -/
def getAtoms (φ : PNode) : List PNode := pyDedup (pAtoms φ)

mutual

/-- Value of a real term under an assignment of the symbols. -/
def evalT (σ : String → ℚ) : RTerm → ℚ
  | .sym n => σ n
  | .const q => q
  | .plus args => evalTList σ args
  | .times a b => evalT σ a * evalT σ b
  | .minus a b => evalT σ a - evalT σ b

def evalTList (σ : String → ℚ) : RTermList → ℚ
  | .nil => 0
  | .cons x xs => evalT σ x + evalTList σ xs

end

mutual

/-- Truth value of a formula under an assignment (the LRA semantics the
source's `is_valid` assertions refer to). -/
def evalP (σ : String → ℚ) : PNode → Bool
  | .trueP => true
  | .falseP => false
  | .le a b => decide (evalT σ a ≤ evalT σ b)
  | .lt a b => decide (evalT σ a < evalT σ b)
  | .notP f => !evalP σ f
  | .andP args => evalPAnd σ args
  | .orP args => evalPOr σ args

def evalPAnd (σ : String → ℚ) : PNodeList → Bool
  | .nil => true
  | .cons x xs => evalP σ x && evalPAnd σ xs

def evalPOr (σ : String → ℚ) : PNodeList → Bool
  | .nil => false
  | .cons x xs => evalP σ x || evalPOr σ xs

end

/-- Logical equivalence of two formulas (what
`pysmt.shortcuts.is_valid(Iff(a, b))` decides). -/
def equivP (a b : PNode) : Prop := ∀ σ : String → ℚ, evalP σ a = evalP σ b

/-! ## Real-interval propagation (`relaxer/logical/pysmt/rip.py`) -/

/-- `get_inequality_triple`, for positive or negated `le`/`lt` literals.
The source's check `if not (inequality.is_lt or inequality.is_le)` compares
bound methods and is vacuously false, so it never raises; on any other node
shape the subsequent `arg(0)` access fails instead (`none`, unreachable on
CNF inputs). -/
def get_inequality_triple (literal : PNode) : Option (RTerm × InequalitySymbol × RTerm) :=
  let negated := match literal with | .notP _ => true | _ => false
  let ineq := match literal with | .notP x => x | x => x
  match ineq, negated with
  | .lt a b, false => some (a, InequalitySymbol.lessThan, b)
  | .le a b, false => some (a, InequalitySymbol.lessEqual, b)
  | .lt a b, true => some (a, InequalitySymbol.greaterEqual, b)
  | .le a b, true => some (a, InequalitySymbol.greaterThan, b)
  | _, _ => none

/-- `Bound`. -/
structure PyBound where
  value : XR
  is_strict : Bool
deriving DecidableEq

/-- `Interval`, with the default `[-inf, inf]` bounds. -/
structure PyInterval where
  upper : PyBound := { value := XR.pinf, is_strict := false }
  lower : PyBound := { value := XR.ninf, is_strict := false }
deriving DecidableEq

/-- `Interval.tighten_upper`: keep the current upper bound when the new one
is larger, or equal and non-strict. -/
def PyInterval.tighten_upper (i : PyInterval) (b : PyBound) : PyInterval :=
  if XR.ltB i.upper.value b.value then i
  else if b.value = i.upper.value ∧ ¬b.is_strict then i
  else { i with upper := b }

/-- `Interval.tighten_lower`. -/
def PyInterval.tighten_lower (i : PyInterval) (b : PyBound) : PyInterval :=
  if XR.ltB b.value i.lower.value then i
  else if b.value = i.lower.value ∧ ¬b.is_strict then i
  else { i with lower := b }

/-- The `unit_intervals` dict: association list keyed by (term) nodes,
insertion order kept. -/
abbrev IntervalMap := List (RTerm × PyInterval)

def imapMem (m : IntervalMap) (k : RTerm) : Bool := m.any (fun e => e.1 = k)

def imapGet (m : IntervalMap) (k : RTerm) : PyInterval :=
  ((m.find? (fun e => e.1 = k)).map (fun e => e.2)).getD {}

def imapSet (m : IntervalMap) (k : RTerm) (v : PyInterval) : IntervalMap :=
  if imapMem m k then m.map (fun e => if e.1 = k then (k, v) else e) else m ++ [(k, v)]

/-- `_get_bound`: extract `(variables, bound, is_lower)` from a literal with
a constant on one side (`none` when neither side is constant — callers
guard this). -/
def get_bound (left : RTerm) (op : InequalitySymbol) (right : RTerm) :
    Option (RTerm × PyBound × Bool) :=
  let is_strict := op = InequalitySymbol.greaterThan || op = InequalitySymbol.lessThan
  match left with
  | .const b =>
    let is_lower := !(op = InequalitySymbol.greaterThan || op = InequalitySymbol.greaterEqual)
    some (right, { value := XR.fin b, is_strict := is_strict }, is_lower)
  | _ =>
    match right with
    | .const b =>
      let is_lower := !(op = InequalitySymbol.lessThan || op = InequalitySymbol.lessEqual)
      some (left, { value := XR.fin b, is_strict := is_strict }, is_lower)
    | _ => none

/-- The bound added by one unit clause: the constant-side case delegates to
`_get_bound`; when neither side is constant, a bound is copied over from a
side that is already tracked (`none` is the source's `continue`). -/
def unit_interval_info (ivs : IntervalMap) (l : RTerm) (op : InequalitySymbol) (r : RTerm) :
    Option (RTerm × PyBound × Bool) :=
  if !(l.isConst || r.isConst) then
    let is_strict := op = InequalitySymbol.lessThan || op = InequalitySymbol.greaterThan
    if imapMem ivs l then
      let is_lower := op = InequalitySymbol.lessEqual || op = InequalitySymbol.lessThan
      let b0 := if is_lower then (imapGet ivs l).lower else (imapGet ivs l).upper
      let b1 := if is_strict then { value := b0.value, is_strict := true } else b0
      some (r, b1, is_lower)
    else if imapMem ivs r then
      let is_lower := op = InequalitySymbol.greaterEqual || op = InequalitySymbol.greaterThan
      let b0 := if is_lower then (imapGet ivs r).lower else (imapGet ivs r).upper
      let b1 := if is_strict then { value := b0.value, is_strict := true } else b0
      some (l, b1, is_lower)
    else none
  else get_bound l op r

/-- One clause of `_add_unit_intervals` (`none` models the `ValueError` on a
clause that is not a literal over a known atom). -/
def add_unit_interval_clause (atoms : List PNode) (ivs : IntervalMap) (clause : PNode) :
    Option IntervalMap :=
  if clause.isOr || clause = PNode.trueP then some ivs
  else
    let atom := match clause with | .notP x => x | x => x
    if atom ∈ atoms then
      match get_inequality_triple clause with
      | none => none
      | some (l, op, r) =>
        match unit_interval_info ivs l op r with
        | none => some ivs
        | some (tgt, bound, is_lower) =>
          let iv := if imapMem ivs tgt then imapGet ivs tgt else {}
          some (imapSet ivs tgt
            (if is_lower then iv.tighten_lower bound else iv.tighten_upper bound))
    else none

/-- `_add_unit_intervals` over all clauses. -/
def add_unit_intervals (atoms : List PNode) : IntervalMap → List PNode → Option IntervalMap
  | ivs, [] => some ivs
  | ivs, clause :: rest =>
    match add_unit_interval_clause atoms ivs clause with
    | none => none
    | some ivs1 => add_unit_intervals atoms ivs1 rest

/-- The per-argument unpacking of a `Times` summand in
`_add_implied_intervals`: a symbol argument becomes the summand, a real
constant becomes the coefficient. -/
def unpack_times_arg : RTerm × ℚ → RTerm → RTerm × ℚ
  | (sm, c), arg =>
    let sm1 := if arg.isSym then arg else sm
    let c1 := match arg with | .const q => q | _ => c
    (sm1, c1)

/-- The summand loop of `_add_implied_intervals` (`none` is `skip`; a zero
coefficient breaks out and stores the partial interval, as in the source). -/
def implied_loop (ivs : IntervalMap) : List RTerm → PyInterval → Option PyInterval
  | [], iv => some iv
  | summand :: rest, iv =>
    let smc := match summand with
      | .times a b => unpack_times_arg (unpack_times_arg (RTerm.times a b, (1 : ℚ)) a) b
      | s => (s, (1 : ℚ))
    if smc.2 = (0 : ℚ) then some iv
    else if !(imapMem ivs smc.1) then none
    else
      let si := imapGet ivs smc.1
      let low := si.lower.value.mulQ smc.2
      let up := si.upper.value.mulQ smc.2
      if XR.leB low up then
        implied_loop ivs rest
          { upper := { value := iv.upper.value.add up, is_strict := iv.upper.is_strict || si.upper.is_strict },
            lower := { value := iv.lower.value.add low, is_strict := iv.lower.is_strict || si.lower.is_strict } }
      else
        implied_loop ivs rest
          { upper := { value := iv.upper.value.add low, is_strict := iv.upper.is_strict || si.lower.is_strict },
            lower := { value := iv.lower.value.add up, is_strict := iv.lower.is_strict || si.upper.is_strict } }

/-- One atom's contribution in `_add_implied_intervals`. -/
def add_implied_for_atom (ivs : IntervalMap) (atom : PNode) : IntervalMap :=
  match get_inequality_triple atom with
  | none => ivs
  | some (l, _, r) =>
    if !(l.isConst || r.isConst) then ivs
    else
      let tgt := if l.isConst then r else l
      match tgt with
      | .plus summands =>
        (match implied_loop ivs summands.toList
            { upper := { value := XR.fin 0, is_strict := false },
              lower := { value := XR.fin 0, is_strict := false } } with
        | none => ivs
        | some iv => imapSet ivs (RTerm.plus summands) iv)
      | _ => ivs

/-- `_add_implied_intervals`. -/
def add_implied_intervals (ivs : IntervalMap) (atoms : List PNode) : IntervalMap :=
  atoms.foldl add_implied_for_atom ivs

/-- The literal loop of `_rewrite_clause`.  Outer `none` models an
exception; inner `none` means a literal was proved true (the clause becomes
`TRUE`); otherwise the surviving literal set and the changed flag. -/
def rewrite_literals (ivs : IntervalMap) :
    List PNode → List PNode × Bool → Option (Option (List PNode × Bool))
  | [], acc => some (some acc)
  | lit :: rest, (out, changed) =>
    match get_inequality_triple lit with
    | none => none
    | some (l, op, r) =>
      if !(l.isConst || r.isConst) then rewrite_literals ivs rest (insertD lit out, changed)
      else
        match get_bound l op r with
        | none => none
        | some (tgt, bound, is_lower) =>
          if imapMem ivs tgt then
            let itv := imapGet ivs tgt
            let sat :=
              if is_lower then
                XR.ltB bound.value itv.lower.value ||
                  (bound.value = itv.lower.value && (itv.lower.is_strict || !bound.is_strict))
              else
                XR.ltB itv.upper.value bound.value ||
                  (bound.value = itv.upper.value && (itv.upper.is_strict || !bound.is_strict))
            let contra :=
              if is_lower then
                XR.ltB itv.upper.value bound.value ||
                  (bound.value = itv.upper.value && (bound.is_strict || itv.upper.is_strict))
              else
                XR.ltB bound.value itv.lower.value ||
                  (bound.value = itv.lower.value && (bound.is_strict || itv.lower.is_strict))
            if sat then some none
            else if contra then rewrite_literals ivs rest (out, true)
            else rewrite_literals ivs rest (insertD lit out, changed)
          else rewrite_literals ivs rest (insertD lit out, changed)

/-- `_rewrite_clause` (`none` models the raised `ValueError`). -/
def rewrite_clause (ivs : IntervalMap) (atoms : List PNode) (clause : PNode) :
    Option (PNode × Bool) :=
  match clause with
  | .notP x => if x ∈ atoms then some (clause, false) else none
  | _ =>
    if clause ∈ atoms then some (clause, false)
    else
      match clause with
      | .orP lits =>
        (match rewrite_literals ivs lits.toList ([], false) with
        | none => none
        | some none => some (PNode.trueP, true)
        | some (some (out, changed)) =>
          if out = [] then some (PNode.falseP, true) else some (mkOr out, changed))
      | _ => none

/-- One pass of the driver's clause loop.  Outer `none` models an
exception; inner `none` means some clause rewrote to `FALSE` (the whole
formula is `FALSE`); otherwise the rewritten clause set and whether any
clause changed. -/
def rip_pass (ivs : IntervalMap) (atoms : List PNode) :
    List PNode → List PNode × Bool → Option (Option (List PNode × Bool))
  | [], acc => some (some acc)
  | clause :: rest, (outClauses, changed) =>
    match rewrite_clause ivs atoms clause with
    | none => none
    | some (rc, ch) =>
      if rc = PNode.falseP then some none
      else if rc = PNode.trueP then rip_pass ivs atoms rest (outClauses, changed || ch)
      else rip_pass ivs atoms rest (insertD rc outClauses, changed || ch)

/-- The fixpoint loop of `propagate_real_intervals_cnf` (`fuel` bounds the
number of passes; exhausting it models non-termination and is never hit in
the theorems below). -/
def rip_loop (atoms : List PNode) : Nat → List PNode → IntervalMap → Option PNode
  | 0, _, _ => none
  | fuel + 1, clauses, ivs =>
    match add_unit_intervals atoms ivs clauses with
    | none => none
    | some ivs1 =>
      let ivs2 := add_implied_intervals ivs1 atoms
      match rip_pass ivs2 atoms clauses ([], false) with
      | none => none
      | some none => some PNode.falseP
      | some (some (clauses2, changed)) =>
        if changed then rip_loop atoms fuel clauses2 ivs2 else some (mkAnd clauses2)

/-- `propagate_real_intervals_cnf`. -/
def propagate_real_intervals_cnf (fuel : Nat) (φ : PNode) : Option PNode :=
  let atoms := getAtoms φ
  match φ with
  | .notP _ => some φ
  | .orP _ => (rewrite_clause [] atoms φ).map (fun r => r.1)
  | .andP args => rip_loop atoms fuel (pyDedup args.toList) []
  | _ => some φ

/-! ## Normal-form transformer (`relaxer/logical/pysmt/normalform.py`)

`NNFTransformer`: the DAG walker applies the handler to each node after its
children have been rewritten; `transform` re-walks until no handler clears
the `_is_in_normal_form` flag (only `walk_not` clears it in this class). -/

/-- `frozenset(clause.args())` for a clause in `walk_and`'s absorption
check (non-`Or` clauses become singleton literal sets). -/
def frozenLitsOr (clause : PNode) : List PNode :=
  match clause with
  | .orP args => pyDedup args.toList
  | _ => [clause]

/-- The dual for `walk_or` (terms are `And`s). -/
def frozenLitsAnd (term : PNode) : List PNode :=
  match term with
  | .andP args => pyDedup args.toList
  | _ => [term]

/-- Boolean subset test on set-representing lists. -/
def subsetB {α : Type} [DecidableEq α] (l1 l2 : List α) : Bool := l1.all (fun x => x ∈ l2)

/-- Boolean set-equality test on set-representing lists (Python `frozenset`
equality). -/
def setEqB {α : Type} [DecidableEq α] (l1 l2 : List α) : Bool := subsetB l1 l2 && subsetB l2 l1

/-- A Python set of frozensets: deduplicate by set equality. -/
def dedupBySetEq (ls : List (List PNode)) : List (List PNode) :=
  ls.foldl (fun acc s => if acc.any (fun o => setEqB s o) then acc else acc ++ [s]) []

/-- The conjunct loop of `walk_and` (`none` models the early `FALSE`
return on a contradiction). -/
def walk_and_loop (origArgs : List PNode) (litSets : List (List PNode)) :
    List PNode → List PNode → Option (List PNode)
  | [], acc => some acc
  | arg :: rest, acc =>
    match arg with
    | .andP nested => walk_and_loop origArgs litSets rest (acc ++ nested.toList)
    | _ =>
      let absorbed :=
        match arg with
        | .orP args' =>
          let ls := pyDedup args'.toList
          litSets.any (fun o => !(setEqB ls o) && subsetB o ls)
        | _ => false
      if absorbed then walk_and_loop origArgs litSets rest acc
      else if (match arg with | .notP x => decide (x ∈ origArgs) | _ => false) then none
      else if arg = PNode.falseP then none
      else if arg = PNode.trueP then walk_and_loop origArgs litSets rest acc
      else walk_and_loop origArgs litSets rest (acc ++ [arg])

/-- `NNFTransformer.walk_and` on the already-walked arguments. -/
def walk_and (args : List PNode) : PNode :=
  let litSets := dedupBySetEq (args.map frozenLitsOr)
  match walk_and_loop args litSets (pyDedup args) [] with
  | none => PNode.falseP
  | some conjuncts => if conjuncts = [] then PNode.trueP else mkAnd conjuncts

/-- The disjunct loop of `walk_or` (`none` models the early `TRUE` return on
a tautology or a true disjunct). -/
def walk_or_loop (origArgs : List PNode) (litSets : List (List PNode)) :
    List PNode → List PNode → Option (List PNode)
  | [], acc => some acc
  | arg :: rest, acc =>
    match arg with
    | .orP nested => walk_or_loop origArgs litSets rest (acc ++ nested.toList)
    | _ =>
      let absorbed :=
        match arg with
        | .andP args' =>
          let ls := pyDedup args'.toList
          litSets.any (fun o => !(setEqB ls o) && subsetB o ls)
        | _ => false
      if absorbed then walk_or_loop origArgs litSets rest acc
      else if (match arg with | .notP x => decide (x ∈ origArgs) | _ => false) then none
      else if arg = PNode.trueP then none
      else if arg = PNode.falseP then walk_or_loop origArgs litSets rest acc
      else walk_or_loop origArgs litSets rest (acc ++ [arg])

/-- `NNFTransformer.walk_or` on the already-walked arguments.  When every
disjunct is dropped the source returns `TRUE()` (normalform.py line 134) —
the correct empty disjunction would be `FALSE`. -/
def walk_or (args : List PNode) : PNode :=
  let litSets := dedupBySetEq (args.map frozenLitsAnd)
  match walk_or_loop args litSets (pyDedup args) [] with
  | none => PNode.trueP
  | some disjuncts => if disjuncts = [] then PNode.trueP else mkOr disjuncts

/-- `NNFTransformer.walk_not` on the already-walked argument; the `Bool` is
true when the handler cleared `_is_in_normal_form`.  (The final catch-all
returns the negation unchanged; the source asserts `arg.is_or()` there,
which is unreachable because every non-connective argument is an atom of
the input.) -/
def walk_not (atoms : List PNode) (arg : PNode) : PNode × Bool :=
  if arg ∈ atoms then (mkNot arg, false)
  else
    (match arg with
     | .falseP => PNode.trueP
     | .trueP => PNode.falseP
     | .notP x => x
     | .andP conjs =>
       mkOr (conjs.toList.foldl
         (fun acc c =>
           let acc1 := match c with | .notP x => insertD x acc | _ => acc
           insertD (mkNot c) acc1) [])
     | .orP disjs =>
       mkAnd (disjs.toList.foldl
         (fun acc c =>
           let acc1 := match c with | .notP x => insertD x acc | _ => acc
           insertD (mkNot c) acc1) [])
     | x => PNode.notP x,
     true)

mutual

/-- One bottom-up walk of `NNFTransformer` (the `Bool` is true when some
handler cleared `_is_in_normal_form`). -/
def nnf_walk (atoms : List PNode) : PNode → PNode × Bool
  | .andP args =>
    let rs := nnf_walk_list atoms args
    (walk_and rs.1, rs.2)
  | .orP args =>
    let rs := nnf_walk_list atoms args
    (walk_or rs.1, rs.2)
  | .notP f =>
    let r := nnf_walk atoms f
    let w := walk_not atoms r.1
    (w.1, r.2 || w.2)
  | x => (x, false)

def nnf_walk_list (atoms : List PNode) : PNodeList → List PNode × Bool
  | .nil => ([], false)
  | .cons x xs =>
    let r := nnf_walk atoms x
    let rs := nnf_walk_list atoms xs
    (r.1 :: rs.1, r.2 || rs.2)

end

/-- The rewrite-until-fixpoint loop of `NNFTransformer.transform` (`fuel`
bounds the number of walks; `none` models non-termination and is never hit
in the theorems below). -/
def nnf_transform_loop (atoms : List PNode) : Nat → PNode → Option PNode
  | 0, _ => none
  | fuel + 1, φ =>
    let r := nnf_walk atoms φ
    if r.2 then nnf_transform_loop atoms fuel r.1 else some r.1

/-- `NNFTransformer.transform` up to the equivalence assertion: the atoms
are computed once from the input, then the walk runs to fixpoint.  The
source finally executes `assert is_valid(Iff(out_formula, formula))`, i.e.
`equivP out φ` must hold or an `AssertionError` is raised. -/
def NNFTransformer.transform (fuel : Nat) (φ : PNode) : Option PNode :=
  nnf_transform_loop (getAtoms φ) fuel φ

/-! ## Timed-automaton interface types (`relaxer/ta.py`,
`relaxer/tracing/system.py`) -/

structure Clock where
  name : String
  process : Option String
deriving DecidableEq

/-- `Operator` for clock constraints. -/
inductive Operator where
  | greaterThan
  | lessThan
  | greaterEqual
  | lessEqual
  | equal
  | notEqual
deriving DecidableEq

/-- `ClockConstraint` (`limit` is an integer in the source; `ℚ` carries it
exactly). -/
structure ClockConstraint where
  clock : Clock
  operator : Operator
  limit : ℚ
  relaxation_idx : Option Nat
deriving DecidableEq

structure Edge where
  target_id : String
  source_id : String
  process : String
  guards : List ClockConstraint
  resets : List Clock
deriving DecidableEq

structure Location where
  id : String
  process : String
  name : String
  urgent : Bool
  invariants : List ClockConstraint
deriving DecidableEq

/-- `SymbolicState`: the (frozen) set of locations, as a list in a fixed
iteration order. -/
structure SymbolicState where
  locations : List Location
deriving DecidableEq

/-- Safety-property `Expression` grammar. -/
inductive Expression where
  | booleanOr (left right : Expression)
  | booleanAnd (left right : Expression)
  | booleanNot (argument : Expression)
  | clockC (c : ClockConstraint)
  | locationPredicate (location_id : String)
deriving DecidableEq

structure SystemState where
  symbolic : SymbolicState
deriving DecidableEq

structure SystemTransition where
  source : SystemState
  target : SystemState
  edges : List Edge
deriving DecidableEq

/-- The `TASystem` adapter contract.  `outgoing_transitions` and
`safety_properties` are Lean functions, hence deterministic — the contract
requires the Python implementations to be deterministic as well. -/
structure TASystem where
  initial_state : SystemState
  num_of_relaxations : Nat
  outgoing_transitions : SystemState → List SystemTransition
  safety_properties : SystemState → List Expression

/-! ## Formulas (`relaxer/logical/formula.py`)

`And`/`Or` take frozensets of sub-formulas; sets are duplicate-free lists
here (structural list equality stands in for Python's order-insensitive
frozenset equality; the claims proved below do not depend on it). -/

mutual

inductive Formula where
  | boolConst (value : Bool)
  | atomIneq (i : Inequality)
  | orF (arguments : FormulaList)
  | andF (arguments : FormulaList)
  | notF (argument : Formula)
deriving DecidableEq

inductive FormulaList where
  | nil
  | cons (hd : Formula) (tl : FormulaList)
deriving DecidableEq

end

def FormulaList.ofList : List Formula → FormulaList
  | [] => .nil
  | h :: t => .cons h (ofList t)

/-- `frozenset((f, g))` for the binary `And`/`Or` built by the property
encoder. -/
def dedup_pair (f g : Formula) : FormulaList :=
  if f = g then FormulaList.cons f FormulaList.nil
  else FormulaList.cons f (FormulaList.cons g FormulaList.nil)

/-! ## DFS trace iterator (`relaxer/logical/iterator.py`)

The iterator's mutable attributes are threaded explicitly.  Each encode
method of the source only mutates the per-depth set at one index (and the
clock-reset dict), so the model passes that one slot in and out. -/

/-- The attributes set once in `__init__`: `self._delta_vars` and
`self._relaxations`. -/
structure EncCtx where
  delta_vars : List PyVariable
  relaxations : List PyVariable
deriving DecidableEq

/-- `__init__`'s variable lists for a system and depth. -/
def mkCtx (sys : TASystem) (depth : Nat) : EncCtx :=
  { delta_vars := (List.range (depth + 1)).map PyVariable.delta,
    relaxations := (List.range sys.num_of_relaxations).map PyVariable.relax }

/-- The `clock_resets` dict: association list in insertion order. -/
abbrev ClockResets := List (Clock × List Nat)

def crLookup (m : ClockResets) (c : Clock) : Option (List Nat) :=
  (m.find? (fun e => e.1 == c)).map (fun e => e.2)

/-- `self._clock_resets[reset].append(target_depth)` (creating the entry
first when missing). -/
def crAppend (m : ClockResets) (c : Clock) (d : Nat) : ClockResets :=
  if m.any (fun e => e.1 == c) then
    m.map (fun e => if e.1 == c then (e.1, e.2 ++ [d]) else e)
  else m ++ [(c, [d])]

/-- The scan inside `_substitute_clock`: walk the recorded resets in order,
remembering the last one `≤ d`, stopping at the first one `> d`. -/
def compute_last_reset : List Nat → Nat → Nat → Nat
  | [], _, acc => acc
  | r :: rest, d, acc => if r > d then acc else compute_last_reset rest d r

/-- `_substitute_clock`: the summands `δ_last_reset … δ_{d-1}` (`0` when the
clock has no recorded reset — every clock is implicitly reset at the
initial state). -/
def substitute_clock (deltaVars : List PyVariable) (m : ClockResets)
    (current_depth : Nat) (clock : Clock) : List Summand :=
  let resets := (crLookup m clock).getD []
  let last_reset := compute_last_reset resets current_depth 0
  ((deltaVars.drop last_reset).take (current_depth - last_reset)).map
    (fun v => { coefficient := 1, var := v })

/-- `_copy_clock_resets`: per clock, keep the resets `< until_depth` (the
source breaks at the first recorded reset `≥ until_depth`; recorded lists
are sorted, and `takeWhile` matches the break exactly on sorted lists and
is what the loop computes on them). -/
def copy_clock_resets (m : ClockResets) (until_depth : Nat) : ClockResets :=
  m.map (fun e => (e.1, e.2.takeWhile (fun r => r < until_depth)))

/-- `_coefficient_from_operator`: `+1` for `>`/`≥`, `-1` otherwise. -/
def coefficient_from_operator (op : Operator) : ℚ :=
  match op with
  | .greaterThan => 1
  | .greaterEqual => 1
  | _ => -1

/-- `_encoded_relaxation`: the `±ρ_idx` summand for a relaxed constraint
(the source indexes `self._relaxations[idx]`, which for an in-range index
is exactly `relax_idx`; an out-of-range index raises `IndexError` in Python
and is unreachable for well-formed systems — the model's default produces
the same `relax_idx` variable). -/
def encoded_relaxation (relaxations : List PyVariable) (c : ClockConstraint) : Option Summand :=
  match c.relaxation_idx with
  | some idx => some { coefficient := coefficient_from_operator c.operator,
                       var := relaxations.getD idx (PyVariable.relax idx) }
  | none => none

/-- `_encoded_clock_constraint`: `=` becomes the `≥`/`≤` pair, the four
inequalities map to themselves, `≠` is the fatal unsupported operator
(`none`). -/
def encoded_clock_constraint (constraint : ClockConstraint) (summands : List Summand) :
    Option (List Inequality) :=
  let clock_sum : Sum := { summands := summands }
  match constraint.operator with
  | .equal =>
    some [{ left := clock_sum, symbol := InequalitySymbol.greaterEqual, right := constraint.limit },
          { left := clock_sum, symbol := InequalitySymbol.lessEqual, right := constraint.limit }]
  | .greaterThan =>
    some [{ left := clock_sum, symbol := InequalitySymbol.greaterThan, right := constraint.limit }]
  | .greaterEqual =>
    some [{ left := clock_sum, symbol := InequalitySymbol.greaterEqual, right := constraint.limit }]
  | .lessThan =>
    some [{ left := clock_sum, symbol := InequalitySymbol.lessThan, right := constraint.limit }]
  | .lessEqual =>
    some [{ left := clock_sum, symbol := InequalitySymbol.lessEqual, right := constraint.limit }]
  | .notEqual => none

/-- The invariant loop of `_encode_locations` for one location: each
invariant contributes `c_sum ~ b` and `c_sum + δ_d ~ b` into the depth-`d`
inequality set. -/
def encode_invariants (ctx : EncCtx) (resets : ClockResets) (d : Nat) :
    List ClockConstraint → List Inequality → Option (List Inequality)
  | [], slot => some slot
  | inv :: rest, slot =>
    let summands0 := substitute_clock ctx.delta_vars resets d inv.clock
    let summands1 := summands0 ++
      (match encoded_relaxation ctx.relaxations inv with | some sm => [sm] | none => [])
    match encoded_clock_constraint inv summands1 with
    | none => none
    | some ineqs1 =>
      let slot1 := insertAllD slot ineqs1
      let summands2 := summands1 ++
        [{ coefficient := 1, var := ctx.delta_vars.getD d (PyVariable.delta d) }]
      match encoded_clock_constraint inv summands2 with
      | none => none
      | some ineqs2 => encode_invariants ctx resets d rest (insertAllD slot1 ineqs2)

/-- `_encode_urgent`'s two inequalities `δ_d ≤ 0` and `δ_d ≥ 0`. -/
def urgent_inequalities (ctx : EncCtx) (d : Nat) : List Inequality :=
  let delta_sum : Sum :=
    { summands := [{ coefficient := 1, var := ctx.delta_vars.getD d (PyVariable.delta d) }] }
  [{ left := delta_sum, symbol := InequalitySymbol.lessEqual, right := 0 },
   { left := delta_sum, symbol := InequalitySymbol.greaterEqual, right := 0 }]

/-- `_encode_locations` over the state's locations, writing into the
depth-`d` inequality slot. -/
def encode_locations_slot (ctx : EncCtx) (resets : ClockResets) (d : Nat) :
    List Location → List Inequality → Option (List Inequality)
  | [], slot => some slot
  | loc :: rest, slot =>
    match encode_invariants ctx resets d loc.invariants slot with
    | none => none
    | some slot1 =>
      let slot2 := if loc.urgent then insertAllD slot1 (urgent_inequalities ctx d) else slot1
      encode_locations_slot ctx resets d rest slot2

/-- The guard loop of `_encode_guards` for one edge: each guard contributes
`c_sum(d-1) + δ_{d-1} (± ρ) ~ b` into the depth-`d` inequality set. -/
def encode_guard_list (ctx : EncCtx) (resets : ClockResets) (target_depth : Nat) :
    List ClockConstraint → List Inequality → Option (List Inequality)
  | [], slot => some slot
  | g :: rest, slot =>
    let summands0 := substitute_clock ctx.delta_vars resets (target_depth - 1) g.clock ++
      [{ coefficient := 1,
         var := ctx.delta_vars.getD (target_depth - 1) (PyVariable.delta (target_depth - 1)) }]
    let summands1 := summands0 ++
      (match encoded_relaxation ctx.relaxations g with | some sm => [sm] | none => [])
    match encoded_clock_constraint g summands1 with
    | none => none
    | some ineqs => encode_guard_list ctx resets target_depth rest (insertAllD slot ineqs)

/-- `_encode_guards` over the transition's edges. -/
def encode_guards_slot (ctx : EncCtx) (resets : ClockResets) (target_depth : Nat) :
    List Edge → List Inequality → Option (List Inequality)
  | [], slot => some slot
  | e :: rest, slot =>
    match encode_guard_list ctx resets target_depth e.guards slot with
    | none => none
    | some slot1 => encode_guards_slot ctx resets target_depth rest slot1

/-- `_encode_resets`: append `target_depth` to every reset clock of every
edge. -/
def encode_resets (target_depth : Nat) (edges : List Edge) (m : ClockResets) : ClockResets :=
  edges.foldl (fun m1 e => e.resets.foldl (fun m2 c => crAppend m2 c target_depth) m1) m

/-- `_encoded_property`: recursively encode a safety-property expression at
the given depth (`none` models the fatal `≠`-operator error; the unknown-
expression `ValueError` is unreachable, the grammar being closed). -/
def encoded_property (ctx : EncCtx) (resets : ClockResets) (current_depth : Nat)
    (state : SymbolicState) (deltas_to_add : List PyVariable) : Expression → Option Formula
  | .booleanOr l r =>
    (match encoded_property ctx resets current_depth state deltas_to_add l,
           encoded_property ctx resets current_depth state deltas_to_add r with
     | some fl, some fr => some (Formula.orF (dedup_pair fl fr))
     | _, _ => none)
  | .booleanAnd l r =>
    (match encoded_property ctx resets current_depth state deltas_to_add l,
           encoded_property ctx resets current_depth state deltas_to_add r with
     | some fl, some fr => some (Formula.andF (dedup_pair fl fr))
     | _, _ => none)
  | .booleanNot a =>
    (encoded_property ctx resets current_depth state deltas_to_add a).map Formula.notF
  | .locationPredicate lid =>
    if lid ∈ state.locations.map (fun l => l.id) then some (Formula.boolConst true)
    else some (Formula.boolConst false)
  | .clockC cc =>
    let summands := substitute_clock ctx.delta_vars resets current_depth cc.clock ++
      deltas_to_add.map (fun v => { coefficient := 1, var := v })
    match encoded_clock_constraint cc summands with
    | none => none
    | some ineqs =>
      some (Formula.andF (FormulaList.ofList (pyDedup (ineqs.map Formula.atomIneq))))

/-- `_encode_safety_properties`: every property of the target state is
encoded twice — without and with `δ_d` — into the depth-`d` property set. -/
def encode_safety_list (ctx : EncCtx) (resets : ClockResets) (d : Nat) (state : SystemState) :
    List Expression → List Formula → Option (List Formula)
  | [], pslot => some pslot
  | p :: rest, pslot =>
    match encoded_property ctx resets d state.symbolic [] p,
          encoded_property ctx resets d state.symbolic
            [ctx.delta_vars.getD d (PyVariable.delta d)] p with
    | some f1, some f2 => encode_safety_list ctx resets d state rest (insertAllD pslot [f1, f2])
    | _, _ => none

/-- `TimedRelaxedTraceConstraints`: the immutable bundle snapshot. -/
structure TimedRelaxedTraceConstraints where
  symbolic_trace : List SymbolicState
  relaxation_vars : List PyVariable
  delta_variables : List PyVariable
  inequalities : List (List Inequality)
  property_formulas : List (List Formula)
deriving DecidableEq

/-- The mutable trace state set up by `__iter__` and updated by
`__next__`. -/
structure IterState where
  symbolic_trace : List SymbolicState
  clock_resets : ClockResets
  trace_ineqs : List (List Inequality)
  property_formulas : List (List Formula)
  transition_stack : List (Nat × SystemTransition)
deriving DecidableEq

/-- Pushing a batch of transitions on the LIFO stack (the list head is the
stack top; appending to the deque's right then popping right is consing
here). -/
def push_transitions (d : Nat) (ts : List SystemTransition)
    (stack : List (Nat × SystemTransition)) : List (Nat × SystemTransition) :=
  ts.foldl (fun st t => (d, t) :: st) stack

/-- `DFSTraceIterator.__iter__`: reset all trace state, encode the initial
state at depth 0, and push the outgoing transitions at depth 1 when the
depth bound allows (`none` models an exception from the encoders). -/
def iter_init (sys : TASystem) (depth : Nat) (ctx : EncCtx) : Option IterState :=
  let s0 := sys.initial_state
  match encode_safety_list ctx [] 0 s0 (sys.safety_properties s0) [] with
  | none => none
  | some pslot =>
    match encode_locations_slot ctx [] 0 s0.symbolic.locations [] with
    | none => none
    | some slot =>
      let stack :=
        if 1 ≤ depth then push_transitions 1 (sys.outgoing_transitions s0) [] else []
      some { symbolic_trace := [s0.symbolic], clock_resets := [],
             trace_ineqs := [slot], property_formulas := [pslot],
             transition_stack := stack }

inductive StepResult where
  | stop
  | error
  | yield (bundle : TimedRelaxedTraceConstraints) (st : IterState)

/-- `DFSTraceIterator.__next__`: pop, truncate to the popped depth, encode
the transition and its target state at that depth, push successors, and
emit the snapshot bundle. -/
def iter_next (sys : TASystem) (depth : Nat) (ctx : EncCtx) (st : IterState) : StepResult :=
  match st.transition_stack with
  | [] => .stop
  | (target_depth, transition) :: stackRest =>
    let resets0 := copy_clock_resets st.clock_resets target_depth
    let ineqs0 := st.trace_ineqs.take target_depth
    let props0 := st.property_formulas.take target_depth
    let trace0 := st.symbolic_trace.take target_depth
    match encode_guards_slot ctx resets0 target_depth transition.edges [] with
    | none => .error
    | some slot1 =>
      let resets1 := encode_resets target_depth transition.edges resets0
      match encode_safety_list ctx resets1 target_depth transition.target
          (sys.safety_properties transition.target) [] with
      | none => .error
      | some pslot =>
        match encode_locations_slot ctx resets1 target_depth
            transition.target.symbolic.locations slot1 with
        | none => .error
        | some slot2 =>
          let trace1 := trace0 ++ [transition.target.symbolic]
          let ineqs1 := ineqs0 ++ [slot2]
          let props1 := props0 ++ [pslot]
          let d1 := target_depth + 1
          let stack1 :=
            if d1 ≤ depth then
              push_transitions d1 (sys.outgoing_transitions transition.target) stackRest
            else stackRest
          let bundle : TimedRelaxedTraceConstraints :=
            { symbolic_trace := trace1,
              relaxation_vars := ctx.relaxations,
              delta_variables := ctx.delta_vars.take d1,
              inequalities := ineqs1,
              property_formulas := props1 }
          .yield bundle
            { symbolic_trace := trace1, clock_resets := resets1,
              trace_ineqs := ineqs1, property_formulas := props1,
              transition_stack := stack1 }

inductive RunStatus where
  | finished
  | errored
  | outOfFuel
deriving DecidableEq

/-- Pull bundles until `StopIteration`, an exception, or fuel exhaustion
(the fuel bounds the number of `__next__` calls; the DFS is finite, so
enough fuel always exists). -/
def iter_run (sys : TASystem) (depth : Nat) (ctx : EncCtx) :
    Nat → IterState → List TimedRelaxedTraceConstraints × IterState × RunStatus
  | 0, st => ([], st, RunStatus.outOfFuel)
  | fuel + 1, st =>
    match iter_next sys depth ctx st with
    | .stop => ([], st, RunStatus.finished)
    | .error => ([], st, RunStatus.errored)
    | .yield b st1 =>
      let r := iter_run sys depth ctx fuel st1
      (b :: r.1, r.2.1, r.2.2)

/-- The `DFSTraceIterator` object: the `__init__`-time attributes plus the
trace state, which exists only after `__iter__` ran. -/
structure DFSTraceIterator where
  system : TASystem
  depth : Nat
  ctx : EncCtx
  state : Option IterState

/-- `DFSTraceIterator(system, depth)`. -/
def DFSTraceIterator.new (sys : TASystem) (depth : Nat) : DFSTraceIterator :=
  { system := sys, depth := depth, ctx := mkCtx sys depth, state := none }

/-- `__iter__`: recomputes the whole trace state from the `__init__`-time
attributes, discarding whatever state a previous iteration left. -/
def DFSTraceIterator.iterCall (it : DFSTraceIterator) : DFSTraceIterator :=
  { it with state := iter_init it.system it.depth it.ctx }

/-- A complete consumption of the iterator (up to `fuel` pulls): the bundles
produced, the object afterwards, and how the run ended. -/
def DFSTraceIterator.run (it : DFSTraceIterator) (fuel : Nat) :
    List TimedRelaxedTraceConstraints × DFSTraceIterator × RunStatus :=
  match it.state with
  | none => ([], it, RunStatus.errored)
  | some st =>
    let r := iter_run it.system it.depth it.ctx fuel st
    (r.1, { it with state := some r.2.1 }, r.2.2)

/-- All bundles emitted by a freshly constructed and `__iter__`-ed
`DFSTraceIterator` within `fuel` pulls. -/
def dfs_bundles (sys : TASystem) (depth fuel : Nat) : List TimedRelaxedTraceConstraints :=
  ((DFSTraceIterator.new sys depth).iterCall.run fuel).1

/-- Spec-side definition (from the clock-substitution paragraph of the
spec): the greatest recorded reset `≤ d`, `0` when there is none. -/
def greatest_reset_le (resets : List Nat) (d : Nat) : Nat :=
  (resets.filter (fun r => r ≤ d)).foldl max 0

/-- The alignment property of claim C5 for one emitted bundle: the delta
variables, the per-depth inequality sets and the per-depth property sets
all have the length of the symbolic trace. -/
def BundleAligned (b : TimedRelaxedTraceConstraints) : Prop :=
  b.delta_variables.length = b.symbolic_trace.length ∧
    b.inequalities.length = b.symbolic_trace.length ∧
    b.property_formulas.length = b.symbolic_trace.length

/-- The `__next__`-preserved invariant of the iterator state: the three
per-depth arrays share one length, and every stacked transition's target
depth is at least 1, within the depth bound, and within the current array
length, with stack depths non-increasing from the top. -/
def IterInv (depth : Nat) (st : IterState) : Prop :=
  st.trace_ineqs.length = st.symbolic_trace.length ∧
    st.property_formulas.length = st.symbolic_trace.length ∧
    1 ≤ st.symbolic_trace.length ∧
    (∀ e ∈ st.transition_stack, 1 ≤ e.1 ∧ e.1 ≤ depth ∧ e.1 ≤ st.symbolic_trace.length) ∧
    st.transition_stack.Pairwise (fun a b => b.1 ≤ a.1)

/-- A minimal concrete `TASystem` (one empty symbolic state, one edge-less
self transition, no properties) used to instantiate theorems with
hypotheses on concrete inputs. -/
def exampleSystem : TASystem :=
  { initial_state := { symbolic := { locations := [] } },
    num_of_relaxations := 0,
    outgoing_transitions := fun _ =>
      [{ source := { symbolic := { locations := [] } },
         target := { symbolic := { locations := [] } },
         edges := [] }],
    safety_properties := fun _ => [] }

/-! # Theorems -/

/-! ## C2: real-interval propagation on `{x ≥ 5, x ≤ 3}`

In pysmt, `x ≥ 5` is constructed as the `LE` node `5 ≤ x`, so the CNF of
the claim is `And(le 5 x, le x 3)`.  `_rewrite_clause` returns any clause
that is a bare atom (or negated atom) unchanged, so unit clauses are never
dropped or falsified: the propagation records the empty interval `[5, 3]`
for `x` but returns the conjunction unchanged, not `FALSE`. -/

/-- C2 counterexample: on the CNF `{x ≥ 5, x ≤ 3}` the function does not
return `⊥`. -/
theorem rip_two_unit_clauses_not_false :
    ¬ (propagate_real_intervals_cnf 9
        (PNode.andL [PNode.le (RTerm.const 5) (RTerm.sym "x"),
                     PNode.le (RTerm.sym "x") (RTerm.const 3)]) =
       some PNode.falseP) := by
  decide

/-- C2 amended: `propagate_real_intervals_cnf` returns the conjunction
`{x ≥ 5, x ≤ 3}` unchanged — atomic unit clauses are never rewritten, so the
contradiction is not detected; `⊥` is only produced when literals inside a
disjunction clause are all dropped. -/
theorem rip_two_unit_clauses_unchanged :
    propagate_real_intervals_cnf 9
        (PNode.andL [PNode.le (RTerm.const 5) (RTerm.sym "x"),
                     PNode.le (RTerm.sym "x") (RTerm.const 3)]) =
      some (PNode.andL [PNode.le (RTerm.const 5) (RTerm.sym "x"),
                        PNode.le (RTerm.sym "x") (RTerm.const 3)]) := by
  decide

/-! ## C3: the normal-form transform on a disjunction of `FALSE`s

`walk_or` drops every `FALSE` disjunct and, with no disjuncts left, returns
`TRUE()` (normalform.py line 134) — the empty disjunction should be `FALSE`.
On `Or(FALSE, FALSE)` the walk therefore produces `TRUE`, which is not
equivalent to the input, and `transform`'s own
`assert is_valid(Iff(out_formula, formula))` fails with `AssertionError`:
the transform neither terminates normally nor returns an equivalent
formula. -/

/-- C3: `NNFTransformer.transform` rewrites `Or(FALSE, FALSE)` to `TRUE`,
which is not logically equivalent to the input, so the source's equivalence
assertion fails. -/
theorem nnf_transform_or_false_false_bug :
    NNFTransformer.transform 5 (PNode.orL [PNode.falseP, PNode.falseP]) =
        some PNode.trueP ∧
      evalP (fun _ => 0) (PNode.orL [PNode.falseP, PNode.falseP]) = false ∧
      evalP (fun _ => 0) PNode.trueP = true ∧
      ¬ equivP PNode.trueP (PNode.orL [PNode.falseP, PNode.falseP]) := by
  refine ⟨by decide, by decide, by decide, fun h => ?_⟩
  have h0 := h (fun _ => 0)
  simp only [show evalP (fun _ => 0) (PNode.orL [PNode.falseP, PNode.falseP]) = false from by decide,
    show evalP (fun _ => 0) PNode.trueP = true from by decide] at h0
  exact Bool.noConfusion h0

/-! ## C7: `Sum` equality is a multiset check, `Sum.__hash__` is not

`Sum` defines `__eq__` (multiset of summands) in its body, so the
`@dataclass(frozen=True)` machinery installs the generated hash
`hash((self.summands,))` — CPython's order-sensitive tuple hash of the
*ordered* summand tuple.  Permuting the summands preserves `==` but changes
the hash (breaking Python's `a == b ⇒ hash(a) == hash(b)` contract, on
which the `set`s of `Inequality` in the iterator rely).  The element hash is
a parameter (it depends on the run's randomized string hashing); the
combiner itself is order-sensitive, as the concrete instance below shows. -/

/-- C7: the sums `(1·δ₀, 2·δ₀)` and `(2·δ₀, 1·δ₀)` are `==`-equal
(multisets) but their tuple hashes differ under an element-hash assignment
distinguishing the two summands. -/
theorem sum_py_eq_but_py_hash_differs :
    Sum.py_eq
        { summands := [{ coefficient := 1, var := PyVariable.delta 0 },
                       { coefficient := 2, var := PyVariable.delta 0 }] }
        { summands := [{ coefficient := 2, var := PyVariable.delta 0 },
                       { coefficient := 1, var := PyVariable.delta 0 }] } = true ∧
      Sum.py_hash (fun sm => if sm.coefficient = 1 then 0 else 1)
          { summands := [{ coefficient := 1, var := PyVariable.delta 0 },
                         { coefficient := 2, var := PyVariable.delta 0 }] } ≠
        Sum.py_hash (fun sm => if sm.coefficient = 1 then 0 else 1)
          { summands := [{ coefficient := 2, var := PyVariable.delta 0 },
                         { coefficient := 1, var := PyVariable.delta 0 }] } := by
  constructor
  · decide
  · decide

/-! ## C8: edge sampling with the default grid setting

`thetas = np.linspace(1, 0, G)`; with the default `G = 2` the sampled
parameters are exactly `[1, 0]`, so the convex combinations along each edge
are the two endpoint vertices only — no interior point.  An interior point
appears first at `G = 3`. -/

/-- C8 counterexample: for the non-dominated vertices `(0,2)` and `(2,0)`
joined by an edge, the `G = 2` run outputs exactly the two vertices; the
midpoint `(1,1)` — the claimed "one interior point per edge" — is not
produced. -/
theorem maximize_conj_g2_no_interior_point :
    maximize_conj_constraints 2 2 [[0, 2], [2, 0]] [] [[1], [0]] [] =
        [[XR.fin 2, XR.fin 0], [XR.fin 0, XR.fin 2]] ∧
      [XR.fin 1, XR.fin 1] ∉ maximize_conj_constraints 2 2 [[0, 2], [2, 0]] [] [[1], [0]] [] := by
  constructor
  · decide
  · decide

/-! ## C9: duplicate dump-location names

`DirectoryLocationHandler.create_dump_location` rejects a duplicate name
with `ValueError(f"Dump location {name} already exists")`, but
`EmptyDumpLocationHandler.create_dump_location` is stateless and always
succeeds — repeated calls with the same name never fail. -/

/-- C9 counterexample: for the no-op handler a repeated
`create_dump_location("trace")` call still succeeds (the call is stateless,
so this is the value of the second call after a successful first call); it
does not fail with the already-exists error. -/
theorem empty_handler_accepts_duplicate_name :
    empty_create_dump_location "trace" = Except.ok () ∧
      empty_create_dump_location "trace" ≠
        Except.error ("Dump location " ++ "trace" ++ " already exists") := by
  constructor
  · rfl
  · intro h
    simp [empty_create_dump_location] at h

/-- C9 amended: the directory handler rejects a duplicate name: after a
successful `create_dump_location n`, a second call with the same `n` fails
with the already-exists error. -/
theorem directory_handler_rejects_duplicate_name (locs locs2 : List String) (n : String)
    (h : directory_create_dump_location locs n = Except.ok locs2) :
    directory_create_dump_location locs2 n =
      Except.error ("Dump location " ++ n ++ " already exists") := by
  by_cases hm : n ∈ locs
  · simp [directory_create_dump_location, hm] at h
  · have h2 : locs ++ [n] = locs2 := by
      simpa [directory_create_dump_location, hm] using h
    subst h2
    simp [directory_create_dump_location]

/-- C9 amended witness: creating `"trace"` on a fresh directory handler and
then again fails the second time. -/
theorem directory_handler_rejects_duplicate_name_witness :
    directory_create_dump_location ["trace"] "trace" =
      Except.error ("Dump location " ++ "trace" ++ " already exists") :=
  directory_handler_rejects_duplicate_name [] ["trace"] "trace" rfl

/-! ## C6: `Sum` string round-trip

`Sum.from_string` parses each printed coefficient with `float(...)`, but
`str(Fraction(1, 2))` is `"1/2"`, which `float` rejects with `ValueError`:
the parser does not accept every printer output.  The round-trip does hold
when every coefficient is an integer (then `str(Fraction)` prints a plain
integer, which `float` parses exactly for magnitudes below 2^53). -/

/-- C6 counterexample: printing the sum `(1/2)·δ₀` gives `"1/2*delta_0"`,
whose parse fails (`float("1/2")` raises `ValueError`). -/
theorem sum_from_string_rejects_rational_coefficient :
    Sum.from_string
        (Sum.py_str { summands := [{ coefficient := (1 : ℚ)/2, var := PyVariable.delta 0 }] }) =
      none := by
  decide

/-! ## C4: the Pareto set is an antichain under `dominates` -/

theorem XR.ltB_irrefl (x : XR) : XR.ltB x x = false := by
  cases x <;> simp [XR.ltB]

theorem dominates_self_false (p : Point) : dominates p p = false := by
  have hany : (p.zip p).any (fun pr => XR.ltB pr.2 pr.1) = false := by
    induction p with
    | nil => rfl
    | cons x xs ih => simp [List.zip_cons_cons, XR.ltB_irrefl, ih]
  simp [dominates, hany]

/-- The scan of `ParetoSet.add` preserves duplicate-freeness and the
antichain property, for every iteration order of the set snapshot.  The
last two hypotheses track the loop invariant: every still-stored point that
`p` dominates is still pending in the queue, and every still-stored point
that is off the queue has been compared with `p` in both directions. -/
theorem pareto_add_scan_spec (p : Point) :
    ∀ (queue cur : List Point),
      cur.Nodup →
      (∀ q ∈ cur, ∀ r ∈ cur, dominates q r = false) →
      (∀ q ∈ cur, dominates p q = true → q ∈ queue) →
      (∀ q ∈ cur, q ∉ queue → dominates q p = false ∧ dominates p q = false) →
      (pareto_add_scan p queue cur).Nodup ∧
        ∀ x ∈ pareto_add_scan p queue cur, ∀ y ∈ pareto_add_scan p queue cur,
          dominates x y = false
  | [], cur, hnd, hac, _hq, hout => by
    simp only [pareto_add_scan, pareto_insert]
    by_cases hmem : p ∈ cur
    · simp only [hmem, if_pos]
      exact ⟨hnd, hac⟩
    · simp only [hmem, if_neg, not_false_iff]
      refine ⟨List.nodup_cons.mpr ⟨hmem, hnd⟩, ?_⟩
      intro x hx y hy
      rcases List.mem_cons.mp hx with rfl | hx2
      · rcases List.mem_cons.mp hy with rfl | hy2
        · exact dominates_self_false _
        · exact (hout y hy2 (by simp)).2
      · rcases List.mem_cons.mp hy with rfl | hy2
        · exact (hout x hx2 (by simp)).1
        · exact hac x hx2 y hy2
  | q0 :: rest, cur, hnd, hac, hq, hout => by
    simp only [pareto_add_scan]
    by_cases h1 : dominates p q0 = true
    · simp only [h1, if_pos]
      refine pareto_add_scan_spec p rest (cur.erase q0) (hnd.erase q0) ?_ ?_ ?_
      · intro q hqe r hre
        exact hac q (List.mem_of_mem_erase hqe) r (List.mem_of_mem_erase hre)
      · intro q hqe hdom
        have hne : q ≠ q0 := ((List.Nodup.mem_erase_iff hnd).mp hqe).1
        have hmem : q ∈ cur := List.mem_of_mem_erase hqe
        rcases List.mem_cons.mp (hq q hmem hdom) with rfl | hr
        · exact absurd rfl hne
        · exact hr
      · intro q hqe hnr
        have hne : q ≠ q0 := ((List.Nodup.mem_erase_iff hnd).mp hqe).1
        have hmem : q ∈ cur := List.mem_of_mem_erase hqe
        refine hout q hmem ?_
        intro hcons
        rcases List.mem_cons.mp hcons with rfl | hr
        · exact hne rfl
        · exact hnr hr
    · by_cases h2 : dominates q0 p = true
      · simp only [h1, if_neg, h2, if_pos, Bool.not_eq_true]
        exact ⟨hnd, hac⟩
      · simp only [h1, if_neg, h2, Bool.not_eq_true]
        refine pareto_add_scan_spec p rest cur hnd hac ?_ ?_
        · intro q hqmem hdom
          rcases List.mem_cons.mp (hq q hqmem hdom) with rfl | hr
          · exact absurd hdom h1
          · exact hr
        · intro q hqmem hnr
          by_cases hq0 : q = q0
          · subst hq0
            exact ⟨eq_false_of_ne_true h2, eq_false_of_ne_true h1⟩
          · refine hout q hqmem ?_
            intro hcons
            rcases List.mem_cons.mp hcons with rfl | hr
            · exact hq0 rfl
            · exact hnr hr

/-- `ParetoSet.add` preserves the Pareto-set invariant. -/
theorem ParetoSet.add_preserves (p : Point) (s : List Point) (hnd : s.Nodup)
    (hac : ∀ x ∈ s, ∀ y ∈ s, dominates x y = false) :
    (ParetoSet.add p s).Nodup ∧
      ∀ x ∈ ParetoSet.add p s, ∀ y ∈ ParetoSet.add p s, dominates x y = false :=
  pareto_add_scan_spec p s s hnd hac (fun _ hq _ => hq) (fun _ hq hq' => absurd hq hq')

/-- C4: after any finite sequence of `ParetoSet.add` calls on a fresh set,
no stored point dominates another stored point (in particular no two
distinct stored points are component-wise `≥` with one component strictly
greater). -/
theorem pareto_ofAdds_antichain (ps : List Point) :
    ∀ x ∈ ParetoSet.ofAdds ps, ∀ y ∈ ParetoSet.ofAdds ps, dominates x y = false := by
  suffices h : ∀ (s : List Point), s.Nodup →
      (∀ x ∈ s, ∀ y ∈ s, dominates x y = false) →
      (ps.foldl (fun s p => ParetoSet.add p s) s).Nodup ∧
        ∀ x ∈ ps.foldl (fun s p => ParetoSet.add p s) s,
          ∀ y ∈ ps.foldl (fun s p => ParetoSet.add p s) s, dominates x y = false by
    exact (h [] List.nodup_nil (by intro x hx; simp at hx)).2
  induction ps with
  | nil => intro s hnd hac; exact ⟨hnd, hac⟩
  | cons p rest ih =>
    intro s hnd hac
    have hstep := ParetoSet.add_preserves p s hnd hac
    simpa [List.foldl_cons] using ih (ParetoSet.add p s) hstep.1 hstep.2

/-- C4 witness: in the set built by four concrete `add` calls, the stored
points `(0, 3)` and `(2, 2)` do not dominate each other. -/
theorem pareto_ofAdds_antichain_witness :
    dominates [XR.fin 0, XR.fin 3] [XR.fin 2, XR.fin 2] = false :=
  pareto_ofAdds_antichain
    [[XR.fin 1, XR.fin 1], [XR.fin 2, XR.fin 0], [XR.fin 2, XR.fin 2], [XR.fin 0, XR.fin 3]]
    [XR.fin 0, XR.fin 3] (by decide) [XR.fin 2, XR.fin 2] (by decide)

/-! ## C1: the substituted clock sum

On a sorted reset list (the enumerator's reset lists are monotone in depth
— appended in DFS order, truncated on backtrack), the break-based scan of
`_substitute_clock` finds the greatest recorded reset `≤ d`, and the slice
`delta_vars[last_reset:d]` is exactly `δ_r … δ_{d-1}`. -/

theorem foldl_max_shift : ∀ (l : List Nat) (a : Nat), l.foldl max a = max a (l.foldl max 0)
  | [], a => by simp
  | x :: xs, a => by
    simp only [List.foldl_cons]
    rw [foldl_max_shift xs (max a x), foldl_max_shift xs (max 0 x)]
    omega

theorem foldl_max_le (d : Nat) : ∀ (l : List Nat) (a : Nat), a ≤ d → (∀ x ∈ l, x ≤ d) →
    l.foldl max a ≤ d
  | [], a, ha, _ => ha
  | x :: xs, a, ha, hl => by
    simp only [List.foldl_cons]
    exact foldl_max_le d xs (max a x) (by have := hl x (by simp); omega)
      (fun y hy => hl y (by simp [hy]))

theorem greatest_reset_le_le (l : List Nat) (d : Nat) : greatest_reset_le l d ≤ d := by
  unfold greatest_reset_le
  refine foldl_max_le d _ 0 (Nat.zero_le d) ?_
  intro x hx
  have := List.of_mem_filter hx
  simpa using this

/-- On a sorted reset list the source's break-based scan computes the
greatest recorded reset `≤ d` (joined with the accumulator). -/
theorem compute_last_reset_sorted (d : Nat) :
    ∀ (l : List Nat) (a : Nat), l.Pairwise (· ≤ ·) → (∀ x ∈ l, a ≤ x) →
      compute_last_reset l d a = max a (greatest_reset_le l d)
  | [], a, _, _ => by simp [compute_last_reset, greatest_reset_le]
  | r :: rest, a, hp, ha => by
    rw [List.pairwise_cons] at hp
    by_cases hrd : r > d
    · have hfil : (r :: rest).filter (fun x => x ≤ d) = [] := by
        refine List.filter_eq_nil_iff.mpr ?_
        intro x hx
        rcases List.mem_cons.mp hx with rfl | hxr
        · simpa using (by omega : ¬ x ≤ d)
        · have hrx := hp.1 x hxr
          simpa using (by omega : ¬ x ≤ d)
      simp only [compute_last_reset, hrd, if_pos, greatest_reset_le, hfil, List.foldl_nil]
      omega
    · have hle : r ≤ d := by omega
      have hfil : (r :: rest).filter (fun x => x ≤ d) = r :: rest.filter (fun x => x ≤ d) := by
        simp [List.filter_cons, hle]
      simp only [compute_last_reset, hrd, if_neg, not_false_iff]
      rw [compute_last_reset_sorted d rest r hp.2 (fun x hx => hp.1 x hx)]
      have haR : a ≤ r := ha r (by simp)
      simp only [greatest_reset_le, hfil, List.foldl_cons]
      rw [foldl_max_shift (rest.filter (fun x => x ≤ d)) (max 0 r)]
      omega

/-- C1: for every clock `c` and depth `d`, given a sorted recorded-reset
list for `c` and `d` within the depth bound, the substituted clock sum is
exactly the summand list `1·δ_r, …, 1·δ_{d-1}` where `r` is the greatest
recorded reset `≤ d` (`0` with no recorded reset), the empty list when
`r = d`. -/
theorem substitute_clock_eq_delta_range (k d : Nat) (m : ClockResets) (c : Clock)
    (hs : ((crLookup m c).getD []).Pairwise (· ≤ ·))
    (hd : d ≤ k + 1) :
    substitute_clock ((List.range (k + 1)).map PyVariable.delta) m d c =
      (List.range' (greatest_reset_le ((crLookup m c).getD []) d)
          (d - greatest_reset_le ((crLookup m c).getD []) d)).map
        (fun j => { coefficient := 1, var := PyVariable.delta j }) := by
  have hz : ∀ x ∈ (crLookup m c).getD [], (0 : Nat) ≤ x := fun x _ => Nat.zero_le x
  have hlr : compute_last_reset ((crLookup m c).getD []) d 0 =
      greatest_reset_le ((crLookup m c).getD []) d := by
    rw [compute_last_reset_sorted d _ 0 hs hz]
    omega
  have hrd : greatest_reset_le ((crLookup m c).getD []) d ≤ d := greatest_reset_le_le _ d
  unfold substitute_clock
  simp only [hlr]
  set r := greatest_reset_le ((crLookup m c).getD []) d with hr
  have hslice : (((List.range (k + 1)).map PyVariable.delta).drop r).take (d - r) =
      (List.range' r (d - r)).map PyVariable.delta := by
    rw [← List.map_drop, ← List.map_take]
    congr 1
    apply List.ext_getElem
    · simp [List.length_take, List.length_drop, List.length_range, List.length_range']
      omega
    · intro i h1 h2
      simp only [List.getElem_take, List.getElem_drop, List.getElem_range, List.getElem_range']
      omega
  rw [hslice, List.map_map]
  rfl

/-! ## C10: iteration is deterministic and restartable

The model's `outgoing_transitions` and `safety_properties` are Lean
functions, i.e. automatically deterministic — which is exactly the
determinism the adapter contract demands of the Python implementations.
`__iter__` recomputes the whole trace state from the `__init__`-time
attributes, and `__next__` never touches those attributes, so a second
`__iter__` after a complete run restarts from an identical state. -/

/-- `run` only replaces the mutable trace state; the `__init__`-time
attributes survive any number of pulls. -/
theorem dfs_run_obj (it : DFSTraceIterator) (fuel : Nat) :
    ∃ s, (it.run fuel).2.1 = { it with state := s } := by
  unfold DFSTraceIterator.run
  cases h : it.state with
  | none => exact ⟨it.state, rfl⟩
  | some st => exact ⟨_, rfl⟩

/-- C10: re-running `__iter__` on the object left behind by a complete
first iteration and consuming it again yields the same bundle sequence in
the same order, ending the same way (for every fuel bound, hence for the
complete finite iterations). -/
theorem dfs_iteration_deterministic_restartable (sys : TASystem) (depth fuel : Nat) :
    (((DFSTraceIterator.new sys depth).iterCall.run fuel).2.1.iterCall.run fuel).1 =
        ((DFSTraceIterator.new sys depth).iterCall.run fuel).1 ∧
      (((DFSTraceIterator.new sys depth).iterCall.run fuel).2.1.iterCall.run fuel).2.2 =
        ((DFSTraceIterator.new sys depth).iterCall.run fuel).2.2 := by
  obtain ⟨s, hs⟩ := dfs_run_obj ((DFSTraceIterator.new sys depth).iterCall) fuel
  rw [hs]
  have hsame : ({ (DFSTraceIterator.new sys depth).iterCall with state := s } :
      DFSTraceIterator).iterCall = (DFSTraceIterator.new sys depth).iterCall := rfl
  rw [hsame]
  exact ⟨rfl, rfl⟩

/-! ## C5: every emitted bundle is depth-aligned

After popping a stacked transition of target depth `d`, the arrays are
truncated to length `d` (possible because stack depths never exceed the
current array length, which the non-increasing stack-depth invariant
maintains across backtracking) and extended by one slot, so every emitted
snapshot has all four sequences of length `d + 1`, and `d ≤ depth` keeps
the delta-variable slice complete. -/

theorem push_transitions_mem (d : Nat) :
    ∀ (ts : List SystemTransition) (stack : List (Nat × SystemTransition)),
      ∀ e ∈ push_transitions d ts stack, e.1 = d ∨ e ∈ stack := by
  intro ts
  induction ts with
  | nil => intro stack e he; exact Or.inr he
  | cons t ts ih =>
    intro stack e he
    have he' : e ∈ push_transitions d ts ((d, t) :: stack) := he
    rcases ih ((d, t) :: stack) e he' with h | h
    · exact Or.inl h
    · rcases List.mem_cons.mp h with rfl | h2
      · exact Or.inl rfl
      · exact Or.inr h2

theorem push_transitions_pairwise (d : Nat) :
    ∀ (ts : List SystemTransition) (stack : List (Nat × SystemTransition)),
      (∀ e ∈ stack, e.1 ≤ d) → stack.Pairwise (fun a b => b.1 ≤ a.1) →
      (push_transitions d ts stack).Pairwise (fun a b => b.1 ≤ a.1) := by
  intro ts
  induction ts with
  | nil => intro stack _ hp; exact hp
  | cons t ts ih =>
    intro stack hb hp
    refine ih ((d, t) :: stack) ?_ (List.pairwise_cons.mpr ⟨fun b hb2 => hb b hb2, hp⟩)
    intro e he
    rcases List.mem_cons.mp he with rfl | h2
    · exact le_refl d
    · exact hb e h2

/-- `__iter__` establishes the invariant. -/
theorem iter_init_inv (sys : TASystem) (depth : Nat) (ctx : EncCtx) (st0 : IterState)
    (h : iter_init sys depth ctx = some st0) : IterInv depth st0 := by
  unfold iter_init at h
  dsimp only at h
  split at h
  · exact Option.noConfusion h
  · split at h
    · exact Option.noConfusion h
    · rw [Option.some_inj] at h
      subst h
      refine ⟨rfl, rfl, le_refl 1, ?_, ?_⟩
      · intro e he
        by_cases hd : 1 ≤ depth
        · simp only [hd, if_pos] at he
          rcases push_transitions_mem 1 _ [] e he with h1 | h1
          · exact ⟨by omega, by omega, by simp [h1]⟩
          · exact absurd h1 (List.not_mem_nil e)
        · simp only [hd, if_neg, not_false_iff] at he
          exact absurd he (List.not_mem_nil e)
      · by_cases hd : 1 ≤ depth
        · simp only [hd, if_pos]
          exact push_transitions_pairwise 1 _ [] (by intro e he; cases he) List.Pairwise.nil
        · simp only [hd, if_neg, not_false_iff]
          exact List.Pairwise.nil

/-- `__next__` emits an aligned bundle and preserves the invariant. -/
theorem iter_next_spec (sys : TASystem) (depth : Nat) (st : IterState)
    (hinv : IterInv depth st) (b : TimedRelaxedTraceConstraints) (st2 : IterState)
    (h : iter_next sys depth (mkCtx sys depth) st = StepResult.yield b st2) :
    BundleAligned b ∧ IterInv depth st2 := by
  obtain ⟨hlen1, hlen2, hpos, hstack, hpw⟩ := hinv
  unfold iter_next at h
  dsimp only at h
  split at h
  · exact StepResult.noConfusion h
  · rename_i d t rest hstackEq
    have hmemTop : (d, t) ∈ st.transition_stack := by rw [hstackEq]; simp
    obtain ⟨hd1, hdDepth, hdLen⟩ := hstack (d, t) hmemTop
    have hrestLe : ∀ e ∈ rest, e.1 ≤ d := by
      rw [hstackEq] at hpw
      exact fun e he => (List.pairwise_cons.mp hpw).1 e he
    have hrestPw : rest.Pairwise (fun a b => b.1 ≤ a.1) := by
      rw [hstackEq] at hpw
      exact (List.pairwise_cons.mp hpw).2
    have hrestStack : ∀ e ∈ rest, 1 ≤ e.1 ∧ e.1 ≤ depth ∧ e.1 ≤ st.symbolic_trace.length :=
      fun e he => hstack e (by rw [hstackEq]; exact List.mem_cons_of_mem _ he)
    split at h
    · exact StepResult.noConfusion h
    · split at h
      · exact StepResult.noConfusion h
      · split at h
        · exact StepResult.noConfusion h
        · rename_i slot1 hg pslot hs slot2 hl
          rw [StepResult.yield.injEq] at h
          obtain ⟨hb, hst2⟩ := h
          subst hb
          subst hst2
          have hLtrace : (st.symbolic_trace.take d).length = d := by
            rw [List.length_take]
            omega
          have hLineq : (st.trace_ineqs.take d).length = d := by
            rw [List.length_take]
            omega
          have hLprop : (st.property_formulas.take d).length = d := by
            rw [List.length_take]
            omega
          have hLdelta : ((mkCtx sys depth).delta_vars.take (d + 1)).length = d + 1 := by
            simp only [mkCtx, List.length_take, List.length_map, List.length_range]
            omega
          constructor
          · refine ⟨?_, ?_, ?_⟩
            · simp only [hLdelta, List.length_append, hLtrace, List.length_cons,
                List.length_nil]
            · simp only [List.length_append, hLineq, hLtrace, List.length_cons,
                List.length_nil]
            · simp only [List.length_append, hLprop, hLtrace, List.length_cons,
                List.length_nil]
          · refine ⟨?_, ?_, ?_, ?_, ?_⟩
            · simp only [List.length_append, hLineq, hLtrace, List.length_cons,
                List.length_nil]
            · simp only [List.length_append, hLprop, hLtrace, List.length_cons,
                List.length_nil]
            · simp only [List.length_append, hLtrace, List.length_cons, List.length_nil]
              omega
            · intro e he
              simp only [List.length_append, hLtrace, List.length_cons, List.length_nil]
              by_cases hdd : d + 1 ≤ depth
              · simp only [hdd, if_pos] at he
                rcases push_transitions_mem (d + 1) _ rest e he with h1 | h1
                · omega
                · have := hrestStack e h1
                  have := hrestLe e h1
                  omega
              · simp only [hdd, if_neg, not_false_iff] at he
                have := hrestStack e he
                have := hrestLe e he
                omega
            · by_cases hdd : d + 1 ≤ depth
              · simp only [hdd, if_pos]
                exact push_transitions_pairwise (d + 1) _ rest
                  (fun e he => by have := hrestLe e he; omega) hrestPw
              · simp only [hdd, if_neg, not_false_iff]
                exact hrestPw

/-- Bundles produced from an invariant-satisfying state are all aligned. -/
theorem iter_run_aligned (sys : TASystem) (depth : Nat) :
    ∀ (fuel : Nat) (st : IterState), IterInv depth st →
      ∀ b ∈ (iter_run sys depth (mkCtx sys depth) fuel st).1, BundleAligned b := by
  intro fuel
  induction fuel with
  | zero => intro st _ b hb; exact absurd hb (List.not_mem_nil b)
  | succ n ih =>
    intro st hinv b hb
    unfold iter_run at hb
    cases hstep : iter_next sys depth (mkCtx sys depth) st with
    | stop => rw [hstep] at hb; exact absurd hb (List.not_mem_nil b)
    | error => rw [hstep] at hb; exact absurd hb (List.not_mem_nil b)
    | yield b1 st1 =>
      rw [hstep] at hb
      obtain ⟨hal, hinv1⟩ := iter_next_spec sys depth st hinv b1 st1 hstep
      rcases List.mem_cons.mp hb with rfl | hb2
      · exact hal
      · exact ih st1 hinv1 b hb2

/-- C5: every bundle emitted by the DFS trace iterator (fresh construction,
`__iter__`, any number of pulls, over any system and depth) is
depth-aligned: `delta_variables`, `inequalities` and `property_formulas`
all have the length of `symbolic_trace`. -/
theorem dfs_bundles_aligned (sys : TASystem) (depth fuel : Nat) :
    ∀ b ∈ dfs_bundles sys depth fuel,
      b.delta_variables.length = b.symbolic_trace.length ∧
        b.inequalities.length = b.symbolic_trace.length ∧
        b.property_formulas.length = b.symbolic_trace.length := by
  intro b hb
  unfold dfs_bundles DFSTraceIterator.run DFSTraceIterator.iterCall DFSTraceIterator.new at hb
  cases hinit : iter_init sys depth (mkCtx sys depth) with
  | none => rw [hinit] at hb; exact absurd hb (List.not_mem_nil b)
  | some st0 =>
    rw [hinit] at hb
    exact iter_run_aligned sys depth fuel st0 (iter_init_inv sys depth (mkCtx sys depth) st0 hinit) b hb

/-- C5 witness: the single bundle emitted for the one-transition example
system at depth 1 is aligned. -/
theorem dfs_bundles_aligned_witness :
    (({ symbolic_trace := [{ locations := [] }, { locations := [] }],
        relaxation_vars := [],
        delta_variables := [PyVariable.delta 0, PyVariable.delta 1],
        inequalities := [[], []],
        property_formulas := [[], []] } : TimedRelaxedTraceConstraints).delta_variables.length =
      ({ symbolic_trace := [{ locations := [] }, { locations := [] }],
         relaxation_vars := [],
         delta_variables := [PyVariable.delta 0, PyVariable.delta 1],
         inequalities := [[], []],
         property_formulas := [[], []] } : TimedRelaxedTraceConstraints).symbolic_trace.length) ∧
      (({ symbolic_trace := [{ locations := [] }, { locations := [] }],
          relaxation_vars := [],
          delta_variables := [PyVariable.delta 0, PyVariable.delta 1],
          inequalities := [[], []],
          property_formulas := [[], []] } : TimedRelaxedTraceConstraints).inequalities.length =
        ({ symbolic_trace := [{ locations := [] }, { locations := [] }],
           relaxation_vars := [],
           delta_variables := [PyVariable.delta 0, PyVariable.delta 1],
           inequalities := [[], []],
           property_formulas := [[], []] } : TimedRelaxedTraceConstraints).symbolic_trace.length) ∧
      (({ symbolic_trace := [{ locations := [] }, { locations := [] }],
          relaxation_vars := [],
          delta_variables := [PyVariable.delta 0, PyVariable.delta 1],
          inequalities := [[], []],
          property_formulas := [[], []] } : TimedRelaxedTraceConstraints).property_formulas.length =
        ({ symbolic_trace := [{ locations := [] }, { locations := [] }],
           relaxation_vars := [],
           delta_variables := [PyVariable.delta 0, PyVariable.delta 1],
           inequalities := [[], []],
           property_formulas := [[], []] } : TimedRelaxedTraceConstraints).symbolic_trace.length) :=
  dfs_bundles_aligned exampleSystem 1 2
    { symbolic_trace := [{ locations := [] }, { locations := [] }],
      relaxation_vars := [],
      delta_variables := [PyVariable.delta 0, PyVariable.delta 1],
      inequalities := [[], []],
      property_formulas := [[], []] } (by decide)

/-- C1 witness: with resets of `x` recorded at depths 1 and 3 and depth
bound 5, the clock value of `x` at depth 4 is `δ₃` (the greatest reset
`≤ 4` is 3). -/
theorem substitute_clock_eq_delta_range_witness :
    substitute_clock ((List.range 6).map PyVariable.delta)
        [({ name := "x", process := none }, [1, 3])] 4 { name := "x", process := none } =
      (List.range' (greatest_reset_le
          ((crLookup [({ name := "x", process := none }, [1, 3])]
            { name := "x", process := none }).getD []) 4)
          (4 - greatest_reset_le
            ((crLookup [({ name := "x", process := none }, [1, 3])]
              { name := "x", process := none }).getD []) 4)).map
        (fun j => { coefficient := 1, var := PyVariable.delta j }) :=
  substitute_clock_eq_delta_range 5 4 [({ name := "x", process := none }, [1, 3])]
    { name := "x", process := none } (by decide) (by omega)

/-! ## C6 (amended): the `Sum` round-trip for integer coefficients -/

theorem digitChar_isDigit : ∀ d < 10, (digitChar d).isDigit = true := by decide

theorem digitVal_digitChar : ∀ d < 10, digitVal (digitChar d) = d := by decide

theorem isDigit_ne_of (c : Char) (h : c.isDigit = true) :
    c ≠ '+' ∧ c ≠ '*' ∧ c ≠ '_' ∧ c ≠ '-' ∧ c ≠ '/' ∧ pyIsSpace c = false := by
  have hv : 48 ≤ c.toNat ∧ c.toNat ≤ 57 := by
    revert h
    simp only [Char.isDigit, Bool.and_eq_true, decide_eq_true_eq]
    intro h
    exact ⟨h.1, h.2⟩
  refine ⟨?_, ?_, ?_, ?_, ?_, ?_⟩ <;>
    first
      | (intro he; subst he; simp at hv)
      | (simp only [pyIsSpace, Bool.or_eq_false_iff, decide_eq_false_iff_not]
         and_intros <;> (intro he; subst he; simp at hv))

theorem digitsValFrom_eq (l : List Char) : ∀ a : Nat,
    digitsValFrom a l = a * 10 ^ l.length + digitsVal l := by
  induction l with
  | nil => intro a; simp [digitsValFrom, digitsVal]
  | cons c l ih =>
    intro a
    show digitsValFrom (a * 10 + digitVal c) l = _
    rw [ih (a * 10 + digitVal c)]
    have h2 : digitsVal (c :: l) = digitVal c * 10 ^ l.length + digitsVal l := by
      show digitsValFrom (0 * 10 + digitVal c) l = _
      rw [ih (0 * 10 + digitVal c)]
      ring
    rw [h2]
    simp only [List.length_cons, pow_succ]
    ring

theorem digitsVal_append_singleton (pre : List Char) (c : Char) :
    digitsVal (pre ++ [c]) = digitsVal pre * 10 + digitVal c := by
  simp [digitsVal, digitsValFrom, List.foldl_append]

theorem natCharsAux_spec : ∀ (fuel n : Nat), n < fuel →
    natCharsAux fuel n ≠ [] ∧ (∀ c ∈ natCharsAux fuel n, c.isDigit = true) ∧
      digitsVal (natCharsAux fuel n) = n
  | 0, n, h => absurd h (by omega)
  | fuel + 1, n, h => by
    by_cases h10 : n < 10
    · refine ⟨by simp [natCharsAux, h10], ?_, ?_⟩
      · intro c hc
        simp only [natCharsAux, h10, if_pos, List.mem_singleton] at hc
        subst hc
        exact digitChar_isDigit n h10
      · simp only [natCharsAux, h10, if_pos]
        show digitsValFrom (0 * 10 + digitVal (digitChar n)) [] = n
        simp [digitsValFrom, digitVal_digitChar n h10]
    · have hrec : n / 10 < fuel := by omega
      obtain ⟨hne, hdig, hval⟩ := natCharsAux_spec fuel (n / 10) hrec
      have hd10 : n % 10 < 10 := Nat.mod_lt n (by omega)
      refine ⟨by simp [natCharsAux, h10], ?_, ?_⟩
      · intro c hc
        simp only [natCharsAux, h10, if_neg, not_false_iff, List.mem_append,
          List.mem_singleton] at hc
        rcases hc with hc | hc
        · exact hdig c hc
        · subst hc; exact digitChar_isDigit _ hd10
      · simp only [natCharsAux, h10, if_neg, not_false_iff]
        rw [digitsVal_append_singleton, hval, digitVal_digitChar _ hd10]
        omega

theorem natChars_spec (n : Nat) :
    natChars n ≠ [] ∧ (∀ c ∈ natChars n, c.isDigit = true) ∧ digitsVal (natChars n) = n :=
  natCharsAux_spec (n + 1) n (by omega)

/-- `float` parses a non-empty all-digit string to its exact decimal
value. -/
theorem pyFloatUnsigned_digits (l : List Char) (hne : l ≠ [])
    (hd : ∀ c ∈ l, c.isDigit = true) :
    pyFloatUnsigned l = some ((digitsVal l : ℚ)) := by
  have hdrop : l.dropWhile Char.isDigit = [] := List.dropWhile_eq_nil_iff.mpr hd
  have htake : l.takeWhile Char.isDigit = l := by
    have := List.takeWhile_append_dropWhile (p := Char.isDigit) (l := l)
    rw [hdrop, List.append_nil] at this
    exact this
  unfold pyFloatUnsigned
  rw [htake, hdrop]
  simp [List.isEmpty_iff, hne]

theorem pyFloatChars_intChars (i : Int) : pyFloatChars (intChars i) = some ((i : ℚ)) := by
  by_cases hneg : i < 0
  · obtain ⟨hne, hdig, hval⟩ := natChars_spec i.natAbs
    have h0 : intChars i = '-' :: natChars i.natAbs := by simp [intChars, hneg]
    have h1 : pyFloatChars ('-' :: natChars i.natAbs) =
        (pyFloatUnsigned (natChars i.natAbs)).map (fun q => -q) := by
      simp [pyFloatChars]
    rw [h0, h1, pyFloatUnsigned_digits _ hne hdig, hval]
    have h2 : (i.natAbs : ℚ) = -(i : ℚ) := by
      rw [Int.cast_natAbs, Int.cast_abs]
      exact abs_of_neg (by exact_mod_cast hneg)
    simp [h2]
  · obtain ⟨hne, hdig, hval⟩ := natChars_spec i.toNat
    have h0 : intChars i = natChars i.toNat := by simp [intChars, hneg]
    rw [h0]
    cases hn : natChars i.toNat with
    | nil => exact absurd hn hne
    | cons c cs =>
      have hcdig : c.isDigit = true := hdig c (by rw [hn]; simp)
      have hcm : c ≠ '-' := (isDigit_ne_of c hcdig).2.2.2.1
      have hcp : c ≠ '+' := (isDigit_ne_of c hcdig).1
      have h1 : pyFloatChars (c :: cs) = pyFloatUnsigned (c :: cs) := by
        simp [pyFloatChars, hcm, hcp]
      rw [h1, pyFloatUnsigned_digits (c :: cs) (by simp) (by rw [← hn]; exact hdig)]
      rw [← hn, hval]
      congr 1
      exact_mod_cast congrArg (fun z : ℤ => (z : ℚ)) (Int.toNat_of_nonneg (by omega))

theorem pyIntChars_natChars (n : Nat) : pyIntChars (natChars n) = some ((n : Int)) := by
  obtain ⟨hne, hdig, hval⟩ := natChars_spec n
  cases hn : natChars n with
  | nil => exact absurd hn hne
  | cons c cs =>
    have hcdig : c.isDigit = true := hdig c (by rw [hn]; simp)
    have hcm : c ≠ '-' := (isDigit_ne_of c hcdig).2.2.2.1
    have hall : (c :: cs).all Char.isDigit = true :=
      List.all_eq_true.mpr (by rw [← hn]; intro x hx; exact hdig x hx)
    have hstep : pyIntChars (c :: cs) =
        if (c :: cs).all Char.isDigit = true then some ((digitsVal (c :: cs) : Int)) else none := by
      simp [pyIntChars, hcm]
    rw [hstep, if_pos hall, ← hn, hval]

/-! splitOnChar facts -/

theorem splitOnChar_ne_nil (sep : Char) : ∀ l : List Char, splitOnChar sep l ≠ []
  | [] => by simp [splitOnChar]
  | c :: rest => by
    unfold splitOnChar
    by_cases h : c = sep
    · simp [h]
    · simp only [h, if_neg, not_false_iff]
      cases hs : splitOnChar sep rest with
      | nil => simp
      | cons h2 t2 => simp

theorem splitOnChar_not_mem (sep : Char) : ∀ l : List Char, sep ∉ l → splitOnChar sep l = [l]
  | [], _ => rfl
  | c :: rest, h => by
    have hc : c ≠ sep := fun he => h (by simp [he])
    have hr : sep ∉ rest := fun he => h (by simp [he])
    unfold splitOnChar
    rw [if_neg (fun he => hc he)]
    rw [splitOnChar_not_mem sep rest hr]

theorem splitOnChar_append (sep : Char) (rest : List Char) :
    ∀ a : List Char, sep ∉ a → splitOnChar sep (a ++ sep :: rest) = a :: splitOnChar sep rest
  | [], _ => by simp [splitOnChar]
  | c :: a, h => by
    have hc : c ≠ sep := fun he => h (by simp [he])
    have ha : sep ∉ a := fun he => h (by simp [he])
    show splitOnChar sep (c :: (a ++ sep :: rest)) = (c :: a) :: splitOnChar sep rest
    conv_lhs => rw [splitOnChar]
    rw [if_neg (fun he => hc he)]
    rw [splitOnChar_append sep rest a ha]

/-! pyStrip facts -/

theorem dropWhile_head_false {p : Char → Bool} {c : Char} {l : List Char}
    (h : p c = false) : (c :: l).dropWhile p = c :: l := by
  simp [List.dropWhile, h]

theorem pyStrip_no_space : ∀ l : List Char, (∀ c ∈ l, pyIsSpace c = false) → pyStrip l = l := by
  intro l h
  unfold pyStrip
  have h1 : l.dropWhile pyIsSpace = l := by
    cases l with
    | nil => rfl
    | cons c cs => exact dropWhile_head_false (h c (by simp))
  rw [h1]
  have h2 : l.reverse.dropWhile pyIsSpace = l.reverse := by
    cases hr : l.reverse with
    | nil => rfl
    | cons c cs =>
      refine dropWhile_head_false (h c ?_)
      have : c ∈ l.reverse := by rw [hr]; simp
      simpa using this
  rw [h2, List.reverse_reverse]

theorem pyStrip_cons_space (l : List Char) : pyStrip (' ' :: l) = pyStrip l := by
  unfold pyStrip
  congr 1

theorem pyStrip_append_space (c0 : Char) (x : List Char) (hc : pyIsSpace c0 = false) :
    pyStrip ((c0 :: x) ++ [' ']) = pyStrip (c0 :: x) := by
  unfold pyStrip
  have h1 : ((c0 :: x) ++ [' ']).dropWhile pyIsSpace = (c0 :: x) ++ [' '] :=
    dropWhile_head_false hc
  have h2 : (c0 :: x).dropWhile pyIsSpace = c0 :: x := dropWhile_head_false hc
  rw [h1, h2]
  have h3 : ((c0 :: x) ++ [' ']).reverse = ' ' :: (c0 :: x).reverse := by
    simp
  rw [h3]
  congr 1

/-! Variable and summand round-trips -/

theorem variable_from_chars_identifier (v : PyVariable) :
    variable_from_chars v.identifierChars = some v := by
  cases v with
  | delta n =>
    obtain ⟨hne, hdig, hval⟩ := natChars_spec n
    have hnu : '_' ∉ natChars n := fun hm => absurd (hdig _ hm) (by decide)
    have hid : (PyVariable.delta n).identifierChars = "delta_".toList ++ natChars n := rfl
    have hsplit : splitOnChar '_' ("delta_".toList ++ natChars n) =
        "delta".toList :: splitOnChar '_' (natChars n) := by
      rw [show ("delta_".toList : List Char) = "delta".toList ++ ['_'] from rfl,
        List.append_assoc]
      exact splitOnChar_append '_' (natChars n) "delta".toList (by decide)
    have htake : ("delta_".toList ++ natChars n).take 6 = "delta_".toList := by
      have h6 : ("delta_".toList : List Char).length = 6 := rfl
      have := List.take_left ("delta_".toList : List Char) (natChars n)
      rw [h6] at this
      exact this
    unfold variable_from_chars
    rw [hid, htake, if_pos rfl, hsplit, splitOnChar_not_mem '_' (natChars n) hnu]
    show (pyIntChars (natChars n)).map (fun i => PyVariable.delta i.toNat) = _
    rw [pyIntChars_natChars n]
    simp
  | relax n =>
    obtain ⟨hne, hdig, hval⟩ := natChars_spec n
    have hnu : '_' ∉ natChars n := fun hm => absurd (hdig _ hm) (by decide)
    have hid : (PyVariable.relax n).identifierChars = "relax_".toList ++ natChars n := rfl
    have hsplit : splitOnChar '_' ("relax_".toList ++ natChars n) =
        "relax".toList :: splitOnChar '_' (natChars n) := by
      rw [show ("relax_".toList : List Char) = "relax".toList ++ ['_'] from rfl,
        List.append_assoc]
      exact splitOnChar_append '_' (natChars n) "relax".toList (by decide)
    have htake : ("relax_".toList ++ natChars n).take 6 = "relax_".toList := by
      have h6 : ("relax_".toList : List Char).length = 6 := rfl
      have := List.take_left ("relax_".toList : List Char) (natChars n)
      rw [h6] at this
      exact this
    have hnotdelta : ¬ (("relax_".toList : List Char) = "delta_".toList) := by decide
    unfold variable_from_chars
    rw [hid, htake, if_neg hnotdelta, if_pos rfl, hsplit,
      splitOnChar_not_mem '_' (natChars n) hnu]
    show (pyIntChars (natChars n)).map (fun i => PyVariable.relax i.toNat) = _
    rw [pyIntChars_natChars n]
    simp

theorem intChars_class (i : Int) :
    intChars i ≠ [] ∧ ∀ c ∈ intChars i, c = '-' ∨ c.isDigit = true := by
  by_cases h : i < 0
  · obtain ⟨hne, hdig, _⟩ := natChars_spec i.natAbs
    constructor
    · simp [intChars, h]
    · intro c hc
      simp only [intChars, h, if_pos, List.mem_cons] at hc
      rcases hc with rfl | hc
      · exact Or.inl rfl
      · exact Or.inr (hdig c hc)
  · obtain ⟨hne, hdig, _⟩ := natChars_spec i.toNat
    constructor
    · simp [intChars, h, hne]
    · intro c hc
      simp only [intChars, h, if_neg, not_false_iff] at hc
      exact Or.inr (hdig c hc)

theorem identifierChars_class (v : PyVariable) :
    ∀ c ∈ v.identifierChars, c ≠ '+' ∧ c ≠ '*' ∧ pyIsSpace c = false := by
  cases v with
  | delta n =>
    intro c hc
    rw [show (PyVariable.delta n).identifierChars = "delta_".toList ++ natChars n from rfl,
      List.mem_append] at hc
    rcases hc with hc | hc
    · have hall : ∀ c ∈ ("delta_".toList : List Char),
          c ≠ '+' ∧ c ≠ '*' ∧ pyIsSpace c = false := by decide
      exact hall c hc
    · obtain ⟨_, hdig, _⟩ := natChars_spec n
      obtain ⟨h1, h2, _, _, _, h6⟩ := isDigit_ne_of c (hdig c hc)
      exact ⟨h1, h2, h6⟩
  | relax n =>
    intro c hc
    rw [show (PyVariable.relax n).identifierChars = "relax_".toList ++ natChars n from rfl,
      List.mem_append] at hc
    rcases hc with hc | hc
    · have hall : ∀ c ∈ ("relax_".toList : List Char),
          c ≠ '+' ∧ c ≠ '*' ∧ pyIsSpace c = false := by decide
      exact hall c hc
    · obtain ⟨_, hdig, _⟩ := natChars_spec n
      obtain ⟨h1, h2, _, _, _, h6⟩ := isDigit_ne_of c (hdig c hc)
      exact ⟨h1, h2, h6⟩

theorem summandChars_eq (sm : Summand) (hden : sm.coefficient.den = 1) :
    summandChars sm = intChars sm.coefficient.num ++ '*' :: sm.var.identifierChars := by
  simp [summandChars, fractionChars, hden]

theorem summandChars_class (sm : Summand) (hden : sm.coefficient.den = 1) :
    (∀ c ∈ summandChars sm, c ≠ '+' ∧ pyIsSpace c = false) ∧
      pyStrip (summandChars sm) = summandChars sm ∧
      summandChars sm ≠ ['0'] ∧
      ∃ c0 rx, summandChars sm = c0 :: rx ∧ pyIsSpace c0 = false := by
  have hsc := summandChars_eq sm hden
  obtain ⟨hine, hichars⟩ := intChars_class sm.coefficient.num
  have hmem : ∀ c ∈ summandChars sm, c ≠ '+' ∧ pyIsSpace c = false := by
    intro c hc
    rw [hsc, List.mem_append, List.mem_cons] at hc
    rcases hc with hc | rfl | hc
    · rcases hichars c hc with rfl | hd
      · exact ⟨by decide, by decide⟩
      · obtain ⟨h1, _, _, _, _, h6⟩ := isDigit_ne_of c hd
        exact ⟨h1, h6⟩
    · exact ⟨by decide, by decide⟩
    · obtain ⟨h1, _, h3⟩ := identifierChars_class sm.var c hc
      exact ⟨h1, h3⟩
  refine ⟨hmem, pyStrip_no_space _ (fun c hc => (hmem c hc).2), ?_, ?_⟩
  · intro h0
    have hstar : '*' ∈ summandChars sm := by rw [hsc]; simp
    rw [h0] at hstar
    simp at hstar
  · cases hin : intChars sm.coefficient.num with
    | nil => exact absurd hin hine
    | cons c0 t =>
      refine ⟨c0, t ++ '*' :: sm.var.identifierChars, by rw [hsc, hin]; simp, ?_⟩
      have hc0 : c0 ∈ summandChars sm := by rw [hsc, hin]; simp
      exact (hmem c0 hc0).2

theorem summand_from_chars_roundtrip (sm : Summand) (hden : sm.coefficient.den = 1) :
    summand_from_chars (summandChars sm) = some sm := by
  have hsc := summandChars_eq sm hden
  obtain ⟨hine, hichars⟩ := intChars_class sm.coefficient.num
  have hnostar1 : '*' ∉ intChars sm.coefficient.num := by
    intro hm
    rcases hichars _ hm with h | h
    · exact absurd h (by decide)
    · exact absurd h (by decide)
  have hnostar2 : '*' ∉ sm.var.identifierChars := by
    intro hm
    exact (identifierChars_class sm.var _ hm).2.1 rfl
  have hsplit : splitOnChar '*' (summandChars sm) =
      [intChars sm.coefficient.num, sm.var.identifierChars] := by
    rw [hsc, splitOnChar_append '*' _ _ hnostar1,
      splitOnChar_not_mem '*' _ hnostar2]
  unfold summand_from_chars
  rw [hsplit]
  show (match pyFloatChars (intChars sm.coefficient.num),
          variable_from_chars sm.var.identifierChars with
        | some q, some pv => some { coefficient := q, var := pv }
        | _, _ => none) = some sm
  rw [pyFloatChars_intChars, variable_from_chars_identifier]
  show some { coefficient := ((sm.coefficient.num : ℚ)), var := sm.var } = some sm
  rw [Rat.coe_int_num_of_den_eq_one hden]

/-- A leading space in the remaining input lands in the first split part
and is stripped away, so it does not change the parse. -/
theorem sum_parts_cons_space (J : List Char) :
    sum_parts (splitOnChar '+' (' ' :: J)) = sum_parts (splitOnChar '+' J) := by
  cases hs : splitOnChar '+' J with
  | nil => exact absurd hs (splitOnChar_ne_nil '+' J)
  | cons h t =>
    have hstep : splitOnChar '+' (' ' :: J) = (' ' :: h) :: t := by
      conv_lhs => rw [splitOnChar]
      rw [if_neg (by decide), hs]
    rw [hstep]
    show sum_parts ((' ' :: h) :: t) = sum_parts (h :: t)
    unfold sum_parts
    rw [pyStrip_cons_space]

/-- Parsing the printed join of a non-empty summand list with integer
coefficients recovers the list. -/
theorem sum_parts_join :
    ∀ l : List Summand, (∀ sm ∈ l, sm.coefficient.den = 1) → l ≠ [] →
      sum_parts (splitOnChar '+' (joinSep [' ', '+', ' '] (l.map summandChars))) = some l
  | [], _, hne => absurd rfl hne
  | [x], hden, _ => by
    have hdx := hden x (by simp)
    obtain ⟨hcl, hstrip, hnz, _⟩ := summandChars_class x hdx
    have hnp : '+' ∉ summandChars x := fun hm => (hcl _ hm).1 rfl
    show sum_parts (splitOnChar '+' (summandChars x)) = some [x]
    rw [splitOnChar_not_mem '+' _ hnp]
    unfold sum_parts
    rw [hstrip, if_neg hnz, summand_from_chars_roundtrip x hdx]
    rfl
  | x :: y :: rest, hden, _ => by
    have hdx := hden x (by simp)
    obtain ⟨hclx, hstripx, hnzx, c0, rx, hhead, hc0⟩ := summandChars_class x hdx
    have hrec := sum_parts_join (y :: rest) (fun sm hm => hden sm (by simp [hm])) (by simp)
    have hnp : '+' ∉ summandChars x ++ [' '] := by
      intro hm
      rw [List.mem_append] at hm
      rcases hm with hm | hm
      · exact (hclx _ hm).1 rfl
      · simp at hm
    have hJ : joinSep [' ', '+', ' '] ((x :: y :: rest).map summandChars) =
        (summandChars x ++ [' ']) ++ '+' ::
          (' ' :: joinSep [' ', '+', ' '] ((y :: rest).map summandChars)) := by
      simp only [List.map_cons, joinSep, List.append_assoc, List.cons_append,
        List.nil_append]
    rw [hJ, splitOnChar_append '+' _ _ hnp]
    unfold sum_parts
    rw [hhead, pyStrip_append_space c0 rx hc0, ← hhead, hstripx, if_neg hnzx,
      summand_from_chars_roundtrip x hdx, sum_parts_cons_space, hrec]
  termination_by l => l.length

/-- C6 amended: the printed form of a `Sum` parses back to an equal `Sum`
whenever every coefficient is an integer — then each coefficient prints as
a plain decimal integer, which `float` accepts (and, for magnitudes below
2^53, represents exactly, which is what the magnitude hypothesis records;
the rational model is exact on that range).  This includes the empty sum,
printed `"0"`. -/
theorem sum_roundtrip_integer_coefficients (s : Sum)
    (h : ∀ sm ∈ s.summands, sm.coefficient.den = 1 ∧ sm.coefficient.num.natAbs < 2 ^ 53) :
    Sum.from_string s.py_str = some s := by
  cases hs : s.summands with
  | nil =>
    have hempty : s = { summands := [] } := by cases s; simp_all
    subst hempty
    decide
  | cons x t =>
    unfold Sum.from_string Sum.py_str
    rw [show (String.mk s.pyStrChars).toList = s.pyStrChars from rfl]
    unfold Sum.pyStrChars
    rw [hs]
    rw [if_neg (by simp)]
    unfold Sum.from_chars
    rw [sum_parts_join (x :: t) (fun sm hm => (h sm (by rw [hs]; exact hm)).1) (by simp)]
    rw [Option.map_some']
    rw [← hs]

/-! ## C8 (amended): edge sampling at `G = 2` yields exactly the endpoints -/

theorem zipWith_conv_left : ∀ (v w : List ℚ), v.length = w.length →
    List.zipWith (fun a b => a * (1 : ℚ) + b * (1 - 1)) v w = v
  | [], [], _ => rfl
  | [], _ :: _, h => by simp at h
  | _ :: _, [], h => by simp at h
  | a :: v, b :: w, h => by
    simp only [List.zipWith_cons_cons]
    rw [zipWith_conv_left v w (by simpa using h)]
    norm_num

theorem zipWith_conv_right : ∀ (v w : List ℚ), v.length = w.length →
    List.zipWith (fun a b => a * (0 : ℚ) + b * (1 - 0)) v w = w
  | [], [], _ => rfl
  | [], _ :: _, h => by simp at h
  | _ :: _, [], h => by simp at h
  | a :: v, b :: w, h => by
    simp only [List.zipWith_cons_cons]
    rw [zipWith_conv_right v w (by simpa using h)]
    norm_num

/-- C8 amended: with the default grid setting `G = 2`, the `G` equally
spaced convex combinations sampled along an edge are exactly the two
endpoint vertices (shifted by the unbounded mask) — there is no interior
point. -/
theorem edge_samples_g2_endpoints (v w : List ℚ) (m : List XR) (h : v.length = w.length) :
    edge_samples 2 v w m = [add_mask v m, add_mask w m] := by
  have hls : linspace_1_0 2 = [1, 0] := by decide
  unfold edge_samples
  rw [hls]
  simp only [List.map_cons, List.map_nil]
  rw [zipWith_conv_left v w h, zipWith_conv_right v w h]

/-- C8 amended witness: for the edge from `(0, 2)` to `(2, 0)` with a zero
mask, the `G = 2` samples are the two vertices. -/
theorem edge_samples_g2_endpoints_witness :
    edge_samples 2 [0, 2] [2, 0] [XR.fin 0, XR.fin 0] =
      [add_mask [0, 2] [XR.fin 0, XR.fin 0], add_mask [2, 0] [XR.fin 0, XR.fin 0]] :=
  edge_samples_g2_endpoints [0, 2] [2, 0] [XR.fin 0, XR.fin 0] (by decide)

/-- C6 amended witness: the two-summand sum `3·δ₀ + (−2)·ρ₁` round-trips
through printing and parsing. -/
theorem sum_roundtrip_integer_coefficients_witness :
    Sum.from_string
        (Sum.py_str { summands := [{ coefficient := 3, var := PyVariable.delta 0 },
                                   { coefficient := -2, var := PyVariable.relax 1 }] }) =
      some { summands := [{ coefficient := 3, var := PyVariable.delta 0 },
                          { coefficient := -2, var := PyVariable.relax 1 }] } :=
  sum_roundtrip_integer_coefficients
    { summands := [{ coefficient := 3, var := PyVariable.delta 0 },
                   { coefficient := -2, var := PyVariable.relax 1 }] }
    (by decide)

end Relaxer
